import Mathlib

/-!
A shallow embedding of `formbody.go` (package `multipart`).

The development models the builder `FormBody` and the sequential composite
reader `multiReader` of `formbody.go`, and proves properties of the byte
stream they produce.

Modelling conventions.

* A Go `string` / `[]byte` is a `List Nat` (one entry per byte).  No operation
  of the program does arithmetic on a byte, so no reduction modulo `256` is
  needed anywhere.
* `*bytes.Buffer` is modelled by its unread portion (what `Bytes()` returns and
  `Len()` measures); `Write` appends at the end, `Read` consumes at the front.
* The body's buffer `w.b` is a single shared cell: `Close` enqueues the pointer
  `w.b` itself, so the queue entry `Reader.buffer` carries no data of its own
  and every read of it goes through the field `b` of the body.
* A caller-supplied `io.ReadCloser` is a scripted source (`Stream`): a list of
  chunks, each with the error value reported when the chunk has been handed
  over completely.
* `Read` results carry the bytes copied into the caller's slice (so `n` is the
  length of that list), the error value, and the list of sources on which
  `Close` was invoked during the call.
-/

namespace Multipart

set_option maxRecDepth 100000

/-- Byte strings: Go `string` and `[]byte` values. -/
abbrev Bytes := List Nat

/-- The bytes of an ASCII literal. -/
def ascii (s : String) : Bytes := s.toList.map Char.toNat

/-- The line break `\r\n`. -/
def crlf : Bytes := [13, 10]

/-- The two dashes `--`. -/
def dashes : Bytes := [45, 45]

/-- The separator `: ` between a header name and its value. -/
def colonSp : Bytes := [58, 32]

/-- Error values: `nil` is `Option.none`. -/
inductive Err
  | EOF
  | Closed
  | other (code : Nat)
  deriving DecidableEq, Repr

/-- One step of a scripted source: `data` is handed over (possibly over several
calls when the caller's slice is shorter), and `err` is returned by the call
that hands over its last byte. -/
structure Chunk where
  data : Bytes
  err : Option Err
  deriving DecidableEq, Repr

/-- A caller-supplied `io.ReadCloser`. `id` stands for the identity of the
object, `closeErr` is what its `Close` returns. -/
structure Stream where
  id : Nat
  script : List Chunk
  closeErr : Option Err
  deriving DecidableEq, Repr

/-- The entries of `multiReader.readers`, by dynamic type. -/
inductive Reader
  | bytesReader (s : Bytes)
  | buffer
  | stream (s : Stream)
  | eofReader
  | multi (rs : List Reader)

/-- What a `Read` call returns, with the `Close` calls it made. -/
structure ReadResult where
  n : Bytes
  err : Option Err
  closed : List Stream
  deriving DecidableEq, Repr

/-- Read of a scripted source into a slice of length `p`. An exhausted script
keeps answering `0, io.EOF`. -/
def Stream.Read (p : Nat) (s : Stream) : ReadResult × Stream :=
  match s.script with
  | [] => (⟨[], some Err.EOF, []⟩, s)
  | c :: cs =>
    if c.data.length ≤ p then (⟨c.data, c.err, []⟩, { s with script := cs })
    else (⟨c.data.take p, none, []⟩,
          { s with script := { c with data := c.data.drop p } :: cs })

/-- The sources closed by `closer.Close()` at lines 157-159: only a
caller-supplied stream implements `io.Closer`. -/
def Reader.closeCalls : Reader → List Stream
  | .stream s => [s]
  | _ => []

mutual
/-- The `Read` method of a queue entry, dispatched on its dynamic type
(`bytes.Reader.Read`, `bytes.Buffer.Read`, the caller's stream,
`eofReader.Read`, and `multiReader.Read` for a nested reader). The second
component is the contents of the shared buffer after the call. -/
def Reader.Read (p : Nat) (b : Bytes) : Reader → ReadResult × Bytes × Reader
  | .bytesReader s =>
    if s.isEmpty then (⟨[], some Err.EOF, []⟩, b, .bytesReader s)
    else (⟨s.take p, none, []⟩, b, .bytesReader (s.drop p))
  | .buffer =>
    if b.isEmpty then (⟨[], if p = 0 then none else some Err.EOF, []⟩, [], .buffer)
    else (⟨b.take p, none, []⟩, b.drop p, .buffer)
  | .stream s => ((s.Read p).1, b, .stream (s.Read p).2)
  | .eofReader => (⟨[], some Err.EOF, []⟩, b, .eofReader)
  | .multi rs => ((mrRead p b rs).1, (mrRead p b rs).2.1, .multi (mrRead p b rs).2.2)
/-- The method `multiReader.Read` (lines 146-174): the loop over the queue,
one recursive call per iteration. -/
def mrRead (p : Nat) (b : Bytes) : List Reader → ReadResult × Bytes × List Reader
  | [] => (⟨[], some Err.EOF, []⟩, b, [])
  | [.multi inner] => mrRead p b inner
  | r :: rest =>
    let x := Reader.Read p b r
    if x.1.err = some Err.EOF then
      if x.1.n ≠ [] then
        (⟨x.1.n, if rest.isEmpty then some Err.EOF else none,
            x.1.closed ++ x.2.2.closeCalls⟩, x.2.1, rest)
      else
        let y := mrRead p x.2.1 rest
        (⟨y.1.n, y.1.err, x.1.closed ++ x.2.2.closeCalls ++ y.1.closed⟩, y.2.1, y.2.2)
    else (x.1, x.2.1, x.2.2 :: rest)
end

/-- The header argument of `CreatePart`: a `textproto.MIMEHeader`, i.e. a map
from names to value lists, as an association list with pairwise distinct
names. The order of the list is the order in which `range` visits the map. -/
abbrev MIMEHeader := List (Bytes × List Bytes)

/-- Go's `<` on strings: byte-wise lexicographic comparison. -/
def strLess : Bytes → Bytes → Bool
  | [], [] => false
  | [], _ :: _ => true
  | _ :: _, [] => false
  | a :: as, b :: bs => decide (a < b) || (decide (a = b) && strLess as bs)

/-- The order `sort.Strings` sorts by: `a` may stand before `b`. -/
def strLE (a b : Bytes) : Prop := strLess b a = false

instance : DecidableRel strLE := fun a b => by unfold strLE; infer_instance

/-- The function `sort.Strings`. -/
def sortStrings (keys : List Bytes) : List Bytes := keys.insertionSort strLE

/-- The map access `header[k]` (the empty list for an absent name). -/
def MIMEHeader.get (h : MIMEHeader) (k : Bytes) : List Bytes :=
  match h.find? (fun e => decide (e.1 = k)) with
  | some e => e.2
  | none => []

/-- The call `h.Set(key, value)` for a key in canonical form. -/
def MIMEHeader.Set (h : MIMEHeader) (key value : Bytes) : MIMEHeader :=
  if h.any (fun e => decide (e.1 = key)) then
    h.map (fun e => if e.1 = key then (key, [value]) else e)
  else h ++ [(key, [value])]

/-- The body under construction. -/
structure FormBody where
  boundary : Bytes
  b : Bytes
  readers : List Reader
  closed : Bool

/-- The function `NewFormBody`, with the result of `randomBoundary()` as a parameter. -/
def NewFormBody (boundary : Bytes) : FormBody :=
  { boundary := boundary, b := [], readers := [], closed := false }

/-- The method `FormBody.Boundary`. -/
def FormBody.Boundary (w : FormBody) : Bytes := w.boundary

/-- The method `FormBody.FormDataContentType`. -/
def FormBody.FormDataContentType (w : FormBody) : Bytes :=
  ascii "multipart/form-data; boundary=" ++ w.boundary

/-- The closing boundary line `\r\n--B--\r\n` written by `Close`. -/
def closingLine (boundary : Bytes) : Bytes :=
  crlf ++ dashes ++ boundary ++ dashes ++ crlf

/-- The method `FormBody.Close` (it always returns `nil`). -/
def FormBody.Close (w : FormBody) : FormBody :=
  if !w.closed then
    { w with closed := true,
             b := w.b ++ closingLine w.boundary,
             readers := w.readers ++ [Reader.buffer] }
  else w

/-- The method `FormBody.Read`. -/
def FormBody.Read (p : Nat) (w : FormBody) : ReadResult × FormBody :=
  if w.readers.isEmpty then (⟨[], some Err.EOF, []⟩, w)
  else
    let w1 := if !w.closed then w.Close else w
    let r := mrRead p w1.b w1.readers
    (r.1, { w1 with b := r.2.1, readers := r.2.2 })

/-- The method `FormBody.getPart`: move the pending bytes into the queue. -/
def FormBody.getPart (f : FormBody) : Bool × FormBody :=
  if f.b.length ≠ 0 then
    (true, { f with readers := f.readers ++ [Reader.bytesReader f.b], b := [] })
  else (false, f)

/-- The header lines written by the loop at lines 80-84. -/
def headerLines (header : MIMEHeader) (keys : List Bytes) : Bytes :=
  keys.flatMap (fun k => (header.get k).flatMap (fun v => k ++ colonSp ++ v ++ crlf))

/-- The method `FormBody.CreatePart`. The returned writer is always the buffer `f.b`, so
only the error is returned next to the new state. -/
def FormBody.CreatePart (header : MIMEHeader) (f : FormBody) : Option Err × FormBody :=
  if f.closed then (some Err.Closed, f)
  else
    let g := f.getPart
    let f1 : FormBody :=
      if g.1 then { g.2 with b := g.2.b ++ (crlf ++ dashes ++ f.boundary ++ crlf) }
      else { g.2 with b := g.2.b ++ (dashes ++ f.boundary ++ crlf) }
    let keys := sortStrings (header.map Prod.fst)
    let f2 : FormBody := { f1 with b := f1.b ++ headerLines header keys }
    let f3 : FormBody := { f2 with b := f2.b ++ crlf }
    (none, f3.getPart.2)

/-- A `Write` on the sink returned by `CreatePart`, that is `bytes.Buffer.Write`
on `f.b`. -/
def FormBody.Write (data : Bytes) (f : FormBody) : FormBody :=
  { f with b := f.b ++ data }

/-- The value `form-data; name="<name>"`. -/
def fieldDisposition (esc : Bytes → Bytes) (fieldname : Bytes) : Bytes :=
  ascii "form-data; name=" ++ [34] ++ esc fieldname ++ [34]

/-- The value `form-data; name="<name>"; filename="<filename>"`. -/
def fileDisposition (esc : Bytes → Bytes) (fieldname filename : Bytes) : Bytes :=
  ascii "form-data; name=" ++ [34] ++ esc fieldname ++ [34] ++
    ascii "; filename=" ++ [34] ++ esc filename ++ [34]

/-- The method `FormBody.CreateFormFile`; `esc` is the function `escapeQuotes`, which is
declared outside `formbody.go`. -/
def FormBody.CreateFormFile (esc : Bytes → Bytes) (fieldname filename : Bytes)
    (w : FormBody) : Option Err × FormBody :=
  let h : MIMEHeader := []
  let h := h.Set (ascii "Content-Disposition") (fileDisposition esc fieldname filename)
  let h := h.Set (ascii "Content-Type") (ascii "application/octet-stream")
  w.CreatePart h

/-- The method `FormBody.CreateFormField`. -/
def FormBody.CreateFormField (esc : Bytes → Bytes) (fieldname : Bytes)
    (w : FormBody) : Option Err × FormBody :=
  let h : MIMEHeader := []
  let h := h.Set (ascii "Content-Disposition") (fieldDisposition esc fieldname)
  w.CreatePart h

/-- The method `FormBody.WriteField`. -/
def FormBody.WriteField (esc : Bytes → Bytes) (fieldname value : Bytes)
    (w : FormBody) : Option Err × FormBody :=
  let r := w.CreateFormField esc fieldname
  match r.1 with
  | some e => (some e, r.2)
  | none => (none, r.2.Write value)

/-- The method `FormBody.CreateFromReader`. -/
def FormBody.CreateFromReader (esc : Bytes → Bytes) (fieldname filename : Bytes)
    (rd : Stream) (w : FormBody) : Option Err × FormBody :=
  let r := w.CreateFormFile esc fieldname filename
  match r.1 with
  | some e => (some e, r.2)
  | none => (none, { r.2 with readers := r.2.readers ++ [Reader.stream rd] })

/-- The method `FormBody.CreateFromByPath`; `osOpen` is `os.Open`. -/
def FormBody.CreateFromByPath (osOpen : Bytes → Except Err Stream) (esc : Bytes → Bytes)
    (fieldname filename filePath : Bytes) (w : FormBody) : Option Err × FormBody :=
  match osOpen filePath with
  | .error e => (some e, w)
  | .ok fd => w.CreateFromReader esc fieldname filename fd

/-- The function `ioutil.ReadAll` on a `multiReader`: `Read` is called until it returns an
error, and `io.EOF` is reported as success. The `i`-th call is made with a
slice of length `sz i`; `none` means that `fuel` calls did not reach the end. -/
def mrReadAll : Nat → (Nat → Nat) → Bytes → List Reader →
    Option (Bytes × Option Err × Bytes × List Reader)
  | 0, _, _, _ => none
  | fuel + 1, sz, b, rs =>
    let r := mrRead (sz 0) b rs
    match r.1.err with
    | none =>
      (mrReadAll fuel (fun i => sz (i + 1)) r.2.1 r.2.2).map
        (fun t => (r.1.n ++ t.1, t.2))
    | some Err.EOF => some (r.1.n, none, r.2)
    | some e => some (r.1.n, some e, r.2)

/-- The function `ioutil.ReadAll` on the body, as in `Test_1`. -/
def ReadAll : Nat → (Nat → Nat) → FormBody → Option (Bytes × Option Err × FormBody)
  | 0, _, _ => none
  | fuel + 1, sz, w =>
    let r := w.Read (sz 0)
    match r.1.err with
    | none => (ReadAll fuel (fun i => sz (i + 1)) r.2).map (fun t => (r.1.n ++ t.1, t.2))
    | some Err.EOF => some (r.1.n, none, r.2)
    | some e => some (r.1.n, some e, r.2)

/-- A script on which no read fails with anything but end-of-data, up to and
including the first chunk that reports end-of-data. -/
def cleanScript : List Chunk → Bool
  | [] => true
  | c :: cs =>
    match c.err with
    | none => cleanScript cs
    | some Err.EOF => true
    | some _ => false

/-- The bytes a script delivers up to its first end-of-data. -/
def scriptContent : List Chunk → Bytes
  | [] => []
  | c :: cs =>
    match c.err with
    | some Err.EOF => c.data
    | _ => c.data ++ scriptContent cs

mutual
/-- A source that fails with nothing but end-of-data. -/
def Reader.clean : Reader → Bool
  | .stream s => cleanScript s.script
  | .multi rs => cleanList rs
  | _ => true
/-- A queue of sources that fail with nothing but end-of-data. -/
def cleanList : List Reader → Bool
  | [] => true
  | r :: rs => r.clean && cleanList rs
end

mutual
/-- The bytes of a source, and the contents of the shared buffer once the
source has been drained, given the contents `b` of the shared buffer before. -/
def Reader.bytes (b : Bytes) : Reader → Bytes × Bytes
  | .bytesReader s => (s, b)
  | .buffer => (b, [])
  | .stream s => (scriptContent s.script, b)
  | .eofReader => ([], b)
  | .multi rs => queueBytes b rs
/-- The bytes of a queue: those of its sources, in queue order. -/
def queueBytes (b : Bytes) : List Reader → Bytes × Bytes
  | [] => ([], b)
  | r :: rs => ((r.bytes b).1 ++ (queueBytes (r.bytes b).2 rs).1, (queueBytes (r.bytes b).2 rs).2)
end

mutual
/-- A bound on the number of reads of a source that deliver no byte. -/
def Reader.weight : Reader → Nat
  | .stream s => s.script.length + 1
  | .multi rs => weightList rs + 1
  | _ => 1
/-- The sum of the weights of a queue. -/
def weightList : List Reader → Nat
  | [] => 0
  | r :: rs => r.weight + weightList rs
end

/-- A number of `Read` calls that is enough to drain a queue. -/
def readBound (b : Bytes) (rs : List Reader) : Nat :=
  (queueBytes b rs).1.length + weightList rs + 1

/-- A queue entry that is a byte snapshot or a caller-supplied stream: the only
entries `getPart` and `CreateFromReader` enqueue. -/
def Reader.isSource : Reader → Bool
  | .bytesReader _ => true
  | .stream _ => true
  | _ => false

/-- The bytes of an open body that are still to be read: the queue, then the
pending buffer. -/
def FormBody.pending (w : FormBody) : Bytes := (queueBytes [] w.readers).1 ++ w.b

/-- The calls that can be made on a body. `Write` is a write on the sink that
`CreatePart` returns. -/
inductive Op
  | CreatePart (h : MIMEHeader)
  | Write (data : Bytes)
  | CreateFormField (fieldname : Bytes)
  | CreateFormFile (fieldname filename : Bytes)
  | WriteField (fieldname value : Bytes)
  | CreateFromReader (fieldname filename : Bytes) (rd : Stream)
  | Close
  | Read (p : Nat)

/-- The state after a call. -/
def Op.apply (esc : Bytes → Bytes) : Op → FormBody → FormBody
  | .CreatePart h, w => (w.CreatePart h).2
  | .Write data, w => w.Write data
  | .CreateFormField n, w => (w.CreateFormField esc n).2
  | .CreateFormFile n fn, w => (w.CreateFormFile esc n fn).2
  | .WriteField n v, w => (w.WriteField esc n v).2
  | .CreateFromReader n fn rd, w => (w.CreateFromReader esc n fn rd).2
  | .Close, w => w.Close
  | .Read p, w => (w.Read p).2

/-- The state after a sequence of calls. -/
def run (esc : Bytes → Bytes) (ops : List Op) (w : FormBody) : FormBody :=
  ops.foldl (fun w op => op.apply esc w) w

/-- The calls that open a part. -/
def Op.opensPart : Op → Bool
  | .CreatePart _ => true
  | .CreateFormField _ => true
  | .CreateFormFile _ _ => true
  | .WriteField _ _ => true
  | .CreateFromReader _ _ _ => true
  | _ => false

/-- The part-building calls: every call but `Close` and `Read`. -/
def Op.building : Op → Bool
  | .Close => false
  | .Read _ => false
  | _ => true

/-- The stream handed over by the call, if any, fails with nothing but
end-of-data. -/
def Op.clean : Op → Bool
  | .CreateFromReader _ _ rd => cleanScript rd.script
  | _ => true

/-- A part added by `WriteField` or by `CreateFromReader`. -/
inductive Part
  | field (fieldname value : Bytes)
  | file (fieldname filename : Bytes) (rd : Stream)

/-- The call that adds the part. -/
def Part.add (esc : Bytes → Bytes) : Part → FormBody → Option Err × FormBody
  | .field n v, w => w.WriteField esc n v
  | .file n fn rd, w => w.CreateFromReader esc n fn rd

/-- The calls of a list of parts, in order. -/
def addParts (esc : Bytes → Bytes) (parts : List Part) (w : FormBody) : FormBody :=
  parts.foldl (fun w p => (p.add esc w).2) w

/-- The body bytes of a part: the field value, or the bytes of the stream. -/
def Part.content : Part → Bytes
  | .field _ v => v
  | .file _ _ rd => scriptContent rd.script

/-- The stream of a part, if any, fails with nothing but end-of-data. -/
def Part.clean : Part → Bool
  | .field _ _ => true
  | .file _ _ rd => cleanScript rd.script

/-- The header lines of a part and the blank line after them. -/
def Part.headers (esc : Bytes → Bytes) : Part → Bytes
  | .field n _ =>
    ascii "Content-Disposition" ++ colonSp ++ fieldDisposition esc n ++ crlf ++ crlf
  | .file n fn _ =>
    ascii "Content-Disposition" ++ colonSp ++ fileDisposition esc n fn ++ crlf ++
      (ascii "Content-Type" ++ colonSp ++ ascii "application/octet-stream" ++ crlf) ++ crlf

/-- The delimiter line of a part, with or without the leading line break. -/
def delimiter (boundary : Bytes) (lead : Bool) : Bytes :=
  (if lead then crlf else []) ++ dashes ++ boundary ++ crlf

/-- The part leaves bytes in the pending buffer: it is a field with a
non-empty value. -/
def Part.leavesPending : Part → Bool
  | .field _ v => !v.isEmpty
  | .file _ _ _ => false

/-- The header block of each part (delimiter line, header lines, blank line) as
`CreatePart` writes it; `lead` tells whether the pending buffer is non-empty
when the first part of the list is opened. -/
def headerBlocks (esc : Bytes → Bytes) (boundary : Bytes) : Bool → List Part → List Bytes
  | _, [] => []
  | lead, p :: ps =>
    (delimiter boundary lead ++ p.headers esc) :: headerBlocks esc boundary p.leavesPending ps

/-- The stream of a list of fields in which every delimiter but the first has
the leading line break: `--B\r\n` before the first part (when `lead` is
`false`), `\r\n--B\r\n` before every later one, and the closing line. -/
def fieldsWire (esc : Bytes → Bytes) (boundary : Bytes) : Bool → List (Bytes × Bytes) → Bytes
  | _, [] => closingLine boundary
  | lead, (n, v) :: ps =>
    delimiter boundary lead ++ (Part.field n v).headers esc ++ v ++ fieldsWire esc boundary true ps

/-- An open body whose queue holds only snapshots and streams: the states
reached by the part-building calls. -/
def Building (w : FormBody) : Prop :=
  w.closed = false ∧ w.readers.all Reader.isSource = true

/-- A new body with boundary `boundary`, the parts added in order, then
`Close`. -/
def closedBody (esc : Bytes → Bytes) (boundary : Bytes) (parts : List Part) : FormBody :=
  (addParts esc parts (NewFormBody boundary)).Close

/-- The body of `Test_1`, with boundary `B`; `file` is what `os.Open` returns
for the path. -/
def test1Body (file : Stream) : FormBody :=
  let b := NewFormBody (ascii "B")
  let b := (b.WriteField id (ascii "f1") (ascii "v1")).2
  let b := (b.WriteField id (ascii "f2") (ascii "v2")).2
  let b := (b.CreateFromByPath (fun _ => Except.ok file) id (ascii "f4") (ascii "f44")
    (ascii "example_test.go")).2
  let b := (b.WriteField id (ascii "f3") (ascii "v3")).2
  b

/-- The number of calls of a run that find the body open and leave it closed:
the calls that execute lines 48-50 of `Close`, which set the flag, write the
closing boundary line and enqueue the buffer. -/
def closings (esc : Bytes → Bytes) : FormBody → List Op → Nat
  | _, [] => 0
  | w, op :: ops =>
    (if w.closed = false ∧ (op.apply esc w).closed = true then 1 else 0)
      + closings esc (op.apply esc w) ops

/-- The stream whose `Close` returns `nil`. -/
def Stream.clearClose (s : Stream) : Stream := { s with closeErr := none }

mutual
/-- The source in which the `Close` of every stream returns `nil`. -/
def Reader.clearClose : Reader → Reader
  | .bytesReader s => .bytesReader s
  | .buffer => .buffer
  | .stream s => .stream s.clearClose
  | .eofReader => .eofReader
  | .multi rs => .multi (clearCloseList rs)
/-- The queue in which the `Close` of every stream returns `nil`. -/
def clearCloseList : List Reader → List Reader
  | [] => []
  | r :: rs => r.clearClose :: clearCloseList rs
end

/-- Successive calls of `multiReader.Read` with slices of the given lengths:
the results of the calls, then the shared buffer and the queue after the last
call. -/
def mrReadSeq : List Nat → Bytes → List Reader → List ReadResult × Bytes × List Reader
  | [], b, rs => ([], b, rs)
  | p :: ps, b, rs =>
    ((mrRead p b rs).1 :: (mrReadSeq ps (mrRead p b rs).2.1 (mrRead p b rs).2.2).1,
      (mrReadSeq ps (mrRead p b rs).2.1 (mrRead p b rs).2.2).2)

mutual
/-- The closable sources of a queue entry, in reading order. -/
def Reader.streams : Reader → List Stream
  | .bytesReader _ => []
  | .buffer => []
  | .stream s => [s]
  | .eofReader => []
  | .multi rs => queueStreams rs
/-- The closable sources of a queue, in reading order. -/
def queueStreams : List Reader → List Stream
  | [] => []
  | r :: rs => r.streams ++ queueStreams rs
end

/-- A queue entry that is not a nested `multiReader`. -/
def Reader.isLeaf : Reader → Bool
  | .multi _ => false
  | _ => true

mutual
/-- The leaf sources of a queue entry, from left to right. -/
def Reader.leaves : Reader → List Reader
  | .bytesReader s => [.bytesReader s]
  | .buffer => [.buffer]
  | .stream s => [.stream s]
  | .eofReader => [.eofReader]
  | .multi rs => flatQueue rs
/-- The flat queue of the leaf sources of a queue, from left to right. -/
def flatQueue : List Reader → List Reader
  | [] => []
  | r :: rs => r.leaves ++ flatQueue rs
end

mutual
/-- No nested reader inside the entry is without a leaf source. -/
def Reader.leafy : Reader → Bool
  | .bytesReader _ => true
  | .buffer => true
  | .stream _ => true
  | .eofReader => true
  | .multi rs => !(flatQueue rs).isEmpty && leafyList rs
/-- No nested reader inside the queue is without a leaf source. -/
def leafyList : List Reader → Bool
  | [] => true
  | r :: rs => r.leafy && leafyList rs
end

/-- The bytes that are still to be read from the body once it is closed: the
bytes of the queue of `w.Close`, the shared buffer being `w.Close.b`. For a
closed body this is what its queue holds now. -/
def FormBody.unread (w : FormBody) : Bytes := (queueBytes w.Close.b w.Close.readers).1

/-- The bytes that a call returns to its caller: those of a `Read`, none for
the other calls. -/
def Op.output : Op → FormBody → Bytes
  | .Read p, w => (w.Read p).1.n
  | _, _ => []

/-- The bytes returned by the `Read` calls of a run, in order. -/
def readOutputs (esc : Bytes → Bytes) : FormBody → List Op → Bytes
  | _, [] => []
  | w, op :: ops => op.output w ++ readOutputs esc (op.apply esc w) ops

/-! ## Reading: one call -/

theorem mrRead_nil (p : Nat) (b : Bytes) :
    mrRead p b [] = (⟨[], some Err.EOF, []⟩, b, []) := by
  rw [mrRead]

theorem mrRead_flatten (p : Nat) (b : Bytes) (inner : List Reader) :
    mrRead p b [Reader.multi inner] = mrRead p b inner := by
  rw [mrRead]

theorem Stream_Read_spec (p : Nat) (hp : 0 < p) (s : Stream) :
    ((s.Read p).1.err = some Err.EOF ∧ (s.Read p).1.n = scriptContent s.script) ∨
    ((s.Read p).1.err = none ∧
      (s.Read p).1.n ++ scriptContent (s.Read p).2.script = scriptContent s.script ∧
      (cleanScript s.script = true → cleanScript (s.Read p).2.script = true) ∧
      (scriptContent (s.Read p).2.script).length + (s.Read p).2.script.length
        < (scriptContent s.script).length + s.script.length) ∨
    ((∃ e, (s.Read p).1.err = some e ∧ e ≠ Err.EOF) ∧ cleanScript s.script = false) := by
  obtain ⟨id, script, ce⟩ := s
  cases script with
  | nil => left; simp [Stream.Read, scriptContent]
  | cons c cs =>
    obtain ⟨data, err⟩ := c
    simp only [Stream.Read]
    by_cases hlen : data.length ≤ p
    · simp only [hlen, if_true]
      cases err with
      | none =>
        right; left
        simp [scriptContent, cleanScript]
        omega
      | some e =>
        cases e with
        | EOF => left; simp [scriptContent]
        | Closed => right; right; simp [cleanScript]
        | other k => right; right; simp [cleanScript]
    · simp only [hlen, if_false]
      right; left
      have hlt : p < data.length := Nat.lt_of_not_le hlen
      refine ⟨by simp, ?_, ?_, ?_⟩
      · cases err with
        | none => simp [scriptContent, ← List.append_assoc]
        | some e => cases e <;> simp [scriptContent, ← List.append_assoc]
      · cases err with
        | none => simp [cleanScript]
        | some e => cases e <;> simp [cleanScript]
      · cases err with
        | none => simp [scriptContent]; omega
        | some e => cases e <;> simp [scriptContent] <;> omega

theorem queueBytes_nil (b : Bytes) : queueBytes b [] = ([], b) := by rw [queueBytes]

theorem queueBytes_cons (b : Bytes) (r : Reader) (rs : List Reader) :
    queueBytes b (r :: rs) =
      ((r.bytes b).1 ++ (queueBytes (r.bytes b).2 rs).1, (queueBytes (r.bytes b).2 rs).2) := by
  rw [queueBytes]

theorem cleanList_cons (r : Reader) (rs : List Reader) :
    cleanList (r :: rs) = (r.clean && cleanList rs) := by rw [cleanList]

theorem weightList_cons (r : Reader) (rs : List Reader) :
    weightList (r :: rs) = r.weight + weightList rs := by rw [weightList]

mutual
theorem Reader_Read_spec (p : Nat) (hp : 0 < p) : ∀ (r : Reader) (b : Bytes),
    ((Reader.Read p b r).1.err = some Err.EOF ∧ (Reader.Read p b r).1.n = (r.bytes b).1 ∧
      (Reader.Read p b r).2.1 = (r.bytes b).2) ∨
    ((Reader.Read p b r).1.err = none ∧
      (Reader.Read p b r).1.n ++ ((Reader.Read p b r).2.2.bytes (Reader.Read p b r).2.1).1
        = (r.bytes b).1 ∧
      ((Reader.Read p b r).2.2.bytes (Reader.Read p b r).2.1).2 = (r.bytes b).2 ∧
      (r.clean = true → (Reader.Read p b r).2.2.clean = true) ∧
      ((Reader.Read p b r).2.2.bytes (Reader.Read p b r).2.1).1.length
          + (Reader.Read p b r).2.2.weight < (r.bytes b).1.length + r.weight) ∨
    ((∃ e, (Reader.Read p b r).1.err = some e ∧ e ≠ Err.EOF) ∧ r.clean = false)
  | .bytesReader s, b => by
    cases s with
    | nil => left; simp [Reader.Read, Reader.bytes]
    | cons a t =>
      right; left
      simp only [Reader.Read, Reader.bytes, Reader.clean, Reader.weight, List.isEmpty_cons,
        List.take_append_drop, List.length_drop, List.length_cons]
      simp
      omega
  | .buffer, b => by
    cases b with
    | nil => left; simp [Reader.Read, Reader.bytes, Nat.pos_iff_ne_zero.mp hp]
    | cons a t =>
      right; left
      simp only [Reader.Read, Reader.bytes, Reader.clean, Reader.weight, List.isEmpty_cons,
        List.take_append_drop, List.length_drop, List.length_cons]
      simp
      omega
  | .stream s, b => by
    rcases Stream_Read_spec p hp s with h | h | h
    · left; simpa [Reader.Read, Reader.bytes] using h
    · right; left
      obtain ⟨h1, h2, h3, h4⟩ := h
      simp only [Reader.Read, Reader.bytes, Reader.clean, Reader.weight]
      exact ⟨h1, h2, trivial, h3, by omega⟩
    · right; right
      simpa [Reader.Read, Reader.clean] using h
  | .eofReader, b => by left; simp [Reader.Read, Reader.bytes]
  | .multi rs, b => by
    rcases mrRead_spec p hp rs b with h | h | h
    · left
      obtain ⟨h1, _, h3, h4⟩ := h
      simp only [Reader.Read, Reader.bytes]
      exact ⟨h1, h3, h4⟩
    · right; left
      obtain ⟨h1, h2, h3, h4, h5⟩ := h
      simp only [Reader.Read, Reader.bytes, Reader.clean, Reader.weight]
      exact ⟨h1, h2, h3, h4, by omega⟩
    · right; right
      simpa [Reader.Read, Reader.clean] using h
theorem mrRead_spec (p : Nat) (hp : 0 < p) : ∀ (rs : List Reader) (b : Bytes),
    ((mrRead p b rs).1.err = some Err.EOF ∧ (mrRead p b rs).2.2 = [] ∧
      (mrRead p b rs).1.n = (queueBytes b rs).1 ∧ (mrRead p b rs).2.1 = (queueBytes b rs).2) ∨
    ((mrRead p b rs).1.err = none ∧
      (mrRead p b rs).1.n ++ (queueBytes (mrRead p b rs).2.1 (mrRead p b rs).2.2).1
        = (queueBytes b rs).1 ∧
      (queueBytes (mrRead p b rs).2.1 (mrRead p b rs).2.2).2 = (queueBytes b rs).2 ∧
      (cleanList rs = true → cleanList (mrRead p b rs).2.2 = true) ∧
      (queueBytes (mrRead p b rs).2.1 (mrRead p b rs).2.2).1.length
          + weightList (mrRead p b rs).2.2 < (queueBytes b rs).1.length + weightList rs) ∨
    ((∃ e, (mrRead p b rs).1.err = some e ∧ e ≠ Err.EOF) ∧ cleanList rs = false)
  | [], b => by left; simp [mrRead_nil, queueBytes_nil]
  | r :: rest, b => by
    by_cases h : ∀ inner, r = Reader.multi inner → rest = [] → False
    · have hr := Reader_Read_spec p hp r b
      rw [mrRead.eq_3 p b r rest h, queueBytes_cons, weightList_cons, cleanList_cons]
      rcases hr with ⟨e1, e2, e3⟩ | ⟨e1, e2, e3, e4, e5⟩ | ⟨⟨e, e1, e2⟩, e3⟩
      · rw [if_pos e1]
        by_cases hn : (Reader.Read p b r).1.n ≠ []
        · rw [if_pos hn]
          cases rest with
          | nil => left; simp [e2, e3, queueBytes_nil]
          | cons r2 rest2 =>
            right; left
            have hpos : 0 < (Reader.Read p b r).1.n.length := List.length_pos.mpr hn
            refine ⟨by simp, by simp [e2, e3], by simp [e3], ?_, ?_⟩
            · intro hc
              rw [Bool.and_eq_true] at hc
              exact hc.2
            · simp only [e3, ← e2, List.length_append]
              omega
        · rw [if_neg hn]
          have hn1 : (Reader.Read p b r).1.n = [] := not_not.mp hn
          have hrest := mrRead_spec p hp rest (Reader.Read p b r).2.1
          have hb : (r.bytes b).1 = [] := by rw [← e2, hn1]
          simp only [hb, List.nil_append, ← e3, List.length_nil]
          rcases hrest with ⟨f1, f2, f3, f4⟩ | ⟨f1, f2, f3, f4, f5⟩ | ⟨f1, f2⟩
          · left; exact ⟨f1, f2, f3, f4⟩
          · right; left
            refine ⟨f1, f2, f3, ?_, by omega⟩
            intro hc
            rw [Bool.and_eq_true] at hc
            exact f4 hc.2
          · right; right
            exact ⟨f1, by rw [f2, Bool.and_false]⟩
      · have hne : ¬ (Reader.Read p b r).1.err = some Err.EOF := by rw [e1]; simp
        rw [if_neg hne]
        right; left
        refine ⟨e1, ?_, ?_, ?_, ?_⟩
        · simp only [queueBytes_cons, e3, ← e2, List.append_assoc]
        · simp only [queueBytes_cons, e3]
        · intro hc
          rw [Bool.and_eq_true] at hc
          simp only [cleanList_cons, e4 hc.1, hc.2, Bool.and_self]
        · simp only [queueBytes_cons, weightList_cons, e3, List.length_append]
          omega
      · have hne : ¬ (Reader.Read p b r).1.err = some Err.EOF := by
          rw [e1]; simpa using e2
        rw [if_neg hne]
        right; right
        exact ⟨⟨e, e1, e2⟩, by rw [e3, Bool.false_and]⟩
    · push_neg at h
      obtain ⟨inner, rfl, rfl, _⟩ := h
      have hin := mrRead_spec p hp inner b
      rw [mrRead_flatten, queueBytes_cons, weightList_cons, cleanList_cons]
      simp only [Reader.bytes, Reader.weight, Reader.clean, queueBytes_nil, List.append_nil,
        weightList, cleanList, Bool.and_true]
      rcases hin with ⟨f1, f2, f3, f4⟩ | ⟨f1, f2, f3, f4, f5⟩ | ⟨f1, f2⟩
      · left; exact ⟨f1, f2, f3, f4⟩
      · right; left; exact ⟨f1, f2, f3, f4, by omega⟩
      · right; right; exact ⟨f1, f2⟩
end

/-! ## Reading to the end -/

theorem mrReadAll_total : ∀ (fuel : Nat) (sz : Nat → Nat) (b : Bytes) (rs : List Reader),
    (∀ i, 0 < sz i) → (queueBytes b rs).1.length + weightList rs < fuel →
    ∃ out err st, mrReadAll fuel sz b rs = some (out, err, st) ∧
      (err = none → out = (queueBytes b rs).1 ∧ st = ((queueBytes b rs).2, [])) ∧
      (cleanList rs = true → err = none)
  | 0, _, _, _, _, h => absurd h (Nat.not_lt_zero _)
  | fuel + 1, sz, b, rs, hsz, h => by
    rw [mrReadAll]
    rcases mrRead_spec (sz 0) (hsz 0) rs b with ⟨e1, e2, e3, e4⟩ | ⟨e1, e2, e3, e4, e5⟩ |
      ⟨⟨e, e1, e2⟩, e3⟩
    · refine ⟨(mrRead (sz 0) b rs).1.n, none, (mrRead (sz 0) b rs).2, ?_, ?_, fun _ => rfl⟩
      · simp only [e1]
      · intro _
        exact ⟨e3, Prod.ext e4 e2⟩
    · obtain ⟨out, err, st, i1, i2, i3⟩ := mrReadAll_total fuel (fun i => sz (i + 1))
        (mrRead (sz 0) b rs).2.1 (mrRead (sz 0) b rs).2.2 (fun i => hsz (i + 1)) (by omega)
      refine ⟨(mrRead (sz 0) b rs).1.n ++ out, err, st, ?_, ?_, fun hc => i3 (e4 hc)⟩
      · simp only [e1, i1, Option.map_some']
      · intro he
        obtain ⟨j1, j2⟩ := i2 he
        exact ⟨by rw [j1, e2], by rw [j2, e3]⟩
    · refine ⟨(mrRead (sz 0) b rs).1.n, some e, (mrRead (sz 0) b rs).2, ?_, ?_, ?_⟩
      · cases e with
        | EOF => exact absurd rfl e2
        | Closed => simp only [e1]
        | other k => simp only [e1]
      · intro he; cases he
      · intro hc; rw [hc] at e3; cases e3

theorem mrReadAll_drain (fuel : Nat) (sz : Nat → Nat) (b : Bytes) (rs : List Reader)
    (hsz : ∀ i, 0 < sz i) (hc : cleanList rs = true)
    (h : (queueBytes b rs).1.length + weightList rs < fuel) :
    mrReadAll fuel sz b rs = some ((queueBytes b rs).1, none, (queueBytes b rs).2, []) := by
  obtain ⟨out, err, st, i1, i2, i3⟩ := mrReadAll_total fuel sz b rs hsz h
  have he := i3 hc
  obtain ⟨j1, j2⟩ := i2 he
  rw [i1, he, j1, j2]

theorem ReadAll_closed : ∀ (fuel : Nat) (sz : Nat → Nat) (w : FormBody), w.closed = true →
    ReadAll fuel sz w = (mrReadAll fuel sz w.b w.readers).map
      (fun t => (t.1, t.2.1, { w with b := t.2.2.1, readers := t.2.2.2 }))
  | 0, _, _, _ => by simp [ReadAll, mrReadAll]
  | fuel + 1, sz, w, hw => by
    have hread : w.Read (sz 0) = ((mrRead (sz 0) w.b w.readers).1,
        { w with b := (mrRead (sz 0) w.b w.readers).2.1,
                 readers := (mrRead (sz 0) w.b w.readers).2.2 }) := by
      cases hrs : w.readers with
      | nil =>
        obtain ⟨B, b, rs, c⟩ := w
        simp only at hrs
        subst hrs
        simp [FormBody.Read, mrRead_nil]
      | cons r rest => simp [FormBody.Read, hrs, hw]
    rw [ReadAll, mrReadAll, hread]
    simp only
    cases herr : (mrRead (sz 0) w.b w.readers).1.err with
    | none =>
      simp only
      rw [ReadAll_closed fuel _ _ (by simpa using hw)]
      simp [Option.map_map, Function.comp_def]
    | some e => cases e <;> simp

/-! ## The builder -/

theorem CreatePart_closed (h : MIMEHeader) (w : FormBody) (hw : w.closed = true) :
    w.CreatePart h = (some Err.Closed, w) := by
  simp [FormBody.CreatePart, hw]

theorem CreatePart_open (h : MIMEHeader) (w : FormBody) (hw : w.closed = false) :
    w.CreatePart h = (none,
      { w with
        b := [],
        readers := w.readers ++ (if w.b.isEmpty then [] else [Reader.bytesReader w.b]) ++
          [Reader.bytesReader (delimiter w.boundary (!w.b.isEmpty) ++
            headerLines h (sortStrings (h.map Prod.fst)) ++ crlf)] }) := by
  obtain ⟨B, b, rs, c⟩ := w
  simp only at hw
  subst hw
  cases b with
  | nil => simp [FormBody.CreatePart, FormBody.getPart, delimiter, crlf]
  | cons a t => simp [FormBody.CreatePart, FormBody.getPart, delimiter, crlf]

theorem fieldHeader_lines (esc : Bytes → Bytes) (n : Bytes) :
    headerLines (MIMEHeader.Set [] (ascii "Content-Disposition") (fieldDisposition esc n))
      (sortStrings ((MIMEHeader.Set [] (ascii "Content-Disposition")
        (fieldDisposition esc n)).map Prod.fst)) ++ crlf
      = (Part.field n []).headers esc := by
  simp [MIMEHeader.Set, sortStrings, headerLines, MIMEHeader.get, Part.headers]

theorem sort_file_keys :
    sortStrings [ascii "Content-Disposition", ascii "Content-Type"]
      = [ascii "Content-Disposition", ascii "Content-Type"] := by
  decide

theorem fileHeader_lines (esc : Bytes → Bytes) (n fn : Bytes) (rd : Stream) :
    headerLines
      (MIMEHeader.Set (MIMEHeader.Set [] (ascii "Content-Disposition") (fileDisposition esc n fn))
        (ascii "Content-Type") (ascii "application/octet-stream"))
      (sortStrings ((MIMEHeader.Set (MIMEHeader.Set [] (ascii "Content-Disposition")
        (fileDisposition esc n fn)) (ascii "Content-Type")
        (ascii "application/octet-stream")).map Prod.fst)) ++ crlf
      = (Part.file n fn rd).headers esc := by
  have hne : ascii "Content-Disposition" ≠ ascii "Content-Type" := by decide
  have hne2 : ascii "Content-Type" ≠ ascii "Content-Disposition" := by decide
  have hset : MIMEHeader.Set (MIMEHeader.Set [] (ascii "Content-Disposition")
        (fileDisposition esc n fn)) (ascii "Content-Type") (ascii "application/octet-stream")
      = [(ascii "Content-Disposition", [fileDisposition esc n fn]),
         (ascii "Content-Type", [ascii "application/octet-stream"])] := by
    simp [MIMEHeader.Set, hne]
  rw [hset]
  simp only [List.map_cons, List.map_nil, sort_file_keys]
  simp [headerLines, MIMEHeader.get, Part.headers, hne, hne2]

theorem queueBytes_source (r : Reader) (hr : r.isSource = true) (b : Bytes) :
    (r.bytes b).2 = b ∧ (r.bytes b).1 = (r.bytes []).1 := by
  cases r <;> simp_all [Reader.isSource, Reader.bytes]

theorem queueBytes_flat : ∀ (rs : List Reader), rs.all Reader.isSource = true → ∀ b : Bytes,
    (queueBytes b rs).2 = b ∧ (queueBytes b rs).1 = (queueBytes [] rs).1
  | [], _, b => by simp [queueBytes_nil]
  | r :: rs, h, b => by
    rw [List.all_cons, Bool.and_eq_true] at h
    have h1 := queueBytes_source r h.1 b
    have h2 := queueBytes_flat rs h.2 b
    have h3 := queueBytes_source r h.1 []
    simp only [queueBytes_cons, h1.1, h2.1, h2.2, h3.1, h1.2, and_self]

theorem queueBytes_append : ∀ (rs rs2 : List Reader), rs.all Reader.isSource = true →
    ∀ b : Bytes, queueBytes b (rs ++ rs2)
      = ((queueBytes [] rs).1 ++ (queueBytes b rs2).1, (queueBytes b rs2).2)
  | [], rs2, _, b => by simp [queueBytes_nil]
  | r :: rs, rs2, h, b => by
    rw [List.all_cons, Bool.and_eq_true] at h
    have h1 := queueBytes_source r h.1 b
    have h3 := queueBytes_source r h.1 []
    have ih := queueBytes_append rs rs2 h.2 b
    simp only [List.cons_append, queueBytes_cons, h1.1, h3.1, ih, h1.2, List.append_assoc]

theorem cleanList_append : ∀ (rs rs2 : List Reader),
    cleanList (rs ++ rs2) = (cleanList rs && cleanList rs2)
  | [], rs2 => by simp [cleanList]
  | r :: rs, rs2 => by
    simp only [List.cons_append, cleanList_cons, cleanList_append rs rs2, Bool.and_assoc]

theorem Building_new (B : Bytes) : Building (NewFormBody B) := by
  simp [Building, NewFormBody]

theorem CreatePart_building (h : MIMEHeader) (w : FormBody) (hw : Building w) :
    Building (w.CreatePart h).2 ∧ (w.CreatePart h).1 = none ∧
    (w.CreatePart h).2.boundary = w.boundary ∧ (w.CreatePart h).2.b = [] ∧
    (w.CreatePart h).2.pending = w.pending ++ (delimiter w.boundary (!w.b.isEmpty) ++
      headerLines h (sortStrings (h.map Prod.fst)) ++ crlf) := by
  obtain ⟨h1, h2⟩ := hw
  rw [CreatePart_open h w h1]
  have hflat : (w.readers ++ if w.b.isEmpty then [] else [Reader.bytesReader w.b]).all
      Reader.isSource = true := by
    cases hb : w.b.isEmpty <;> simp [h2, Reader.isSource]
  refine ⟨⟨h1, ?_⟩, rfl, rfl, rfl, ?_⟩
  · simp only [List.all_append, hflat, Bool.true_and]
    simp [Reader.isSource]
  · simp only [FormBody.pending, List.append_nil]
    rw [queueBytes_append _ _ hflat, queueBytes_append _ _ h2]
    cases hb : w.b with
    | nil => simp [queueBytes_cons, queueBytes_nil, Reader.bytes]
    | cons a t => simp [queueBytes_cons, queueBytes_nil, Reader.bytes]

theorem CreatePart_clean (h : MIMEHeader) (w : FormBody) (hc : cleanList w.readers = true) :
    cleanList (w.CreatePart h).2.readers = true := by
  cases hw : w.closed
  · rw [CreatePart_open h w hw]
    cases hb : w.b.isEmpty <;> simp [cleanList_append, hc, cleanList, Reader.clean]
  · rw [CreatePart_closed h w hw]
    exact hc

theorem Write_building (d : Bytes) (w : FormBody) (hw : Building w) :
    Building (w.Write d) ∧ (w.Write d).boundary = w.boundary ∧ (w.Write d).b = w.b ++ d ∧
    (w.Write d).pending = w.pending ++ d := by
  obtain ⟨h1, h2⟩ := hw
  exact ⟨⟨h1, h2⟩, rfl, rfl, by simp [FormBody.pending, FormBody.Write]⟩

theorem WriteField_building (esc : Bytes → Bytes) (n v : Bytes) (w : FormBody)
    (hw : Building w) :
    Building (w.WriteField esc n v).2 ∧ (w.WriteField esc n v).1 = none ∧
    (w.WriteField esc n v).2.boundary = w.boundary ∧ (w.WriteField esc n v).2.b = v ∧
    (w.WriteField esc n v).2.pending = w.pending ++ (delimiter w.boundary (!w.b.isEmpty) ++
      (Part.field n v).headers esc ++ v) := by
  obtain ⟨c1, c2, c3, c4, c5⟩ := CreatePart_building
    (MIMEHeader.Set [] (ascii "Content-Disposition") (fieldDisposition esc n)) w hw
  have hcf : w.CreateFormField esc n =
      w.CreatePart (MIMEHeader.Set [] (ascii "Content-Disposition") (fieldDisposition esc n)) :=
    rfl
  have hwf : w.WriteField esc n v = (none, (w.CreateFormField esc n).2.Write v) := by
    simp only [FormBody.WriteField, hcf, c2]
  rw [hwf, hcf]
  obtain ⟨d1, d2, d3, d4⟩ := Write_building v _ c1
  refine ⟨d1, rfl, by rw [d2, c3], by rw [d3, c4]; rfl, ?_⟩
  simp only [d4, c5, List.append_assoc, fieldHeader_lines esc n]
  rfl

theorem WriteField_clean (esc : Bytes → Bytes) (n v : Bytes) (w : FormBody)
    (hc : cleanList w.readers = true) : cleanList (w.WriteField esc n v).2.readers = true := by
  have h1 := CreatePart_clean
    (MIMEHeader.Set [] (ascii "Content-Disposition") (fieldDisposition esc n)) w hc
  have hcf : w.CreateFormField esc n =
      w.CreatePart (MIMEHeader.Set [] (ascii "Content-Disposition") (fieldDisposition esc n)) :=
    rfl
  simp only [FormBody.WriteField, hcf]
  split
  · exact h1
  · exact h1

theorem CreateFromReader_building (esc : Bytes → Bytes) (n fn : Bytes) (rd : Stream)
    (w : FormBody) (hw : Building w) :
    Building (w.CreateFromReader esc n fn rd).2 ∧ (w.CreateFromReader esc n fn rd).1 = none ∧
    (w.CreateFromReader esc n fn rd).2.boundary = w.boundary ∧
    (w.CreateFromReader esc n fn rd).2.b = [] ∧
    (w.CreateFromReader esc n fn rd).2.pending = w.pending ++
      (delimiter w.boundary (!w.b.isEmpty) ++ (Part.file n fn rd).headers esc ++
        scriptContent rd.script) := by
  obtain ⟨c1, c2, c3, c4, c5⟩ := CreatePart_building
    (MIMEHeader.Set (MIMEHeader.Set [] (ascii "Content-Disposition") (fileDisposition esc n fn))
        (ascii "Content-Type") (ascii "application/octet-stream")) w hw
  have hcf : w.CreateFormFile esc n fn = w.CreatePart
      (MIMEHeader.Set (MIMEHeader.Set [] (ascii "Content-Disposition")
        (fileDisposition esc n fn)) (ascii "Content-Type") (ascii "application/octet-stream")) :=
    rfl
  have hwf : w.CreateFromReader esc n fn rd = (none,
      { (w.CreateFormFile esc n fn).2 with
        readers := (w.CreateFormFile esc n fn).2.readers ++ [Reader.stream rd] }) := by
    simp only [FormBody.CreateFromReader, hcf, c2]
  rw [hwf, hcf]
  obtain ⟨e1, e2⟩ := c1
  refine ⟨⟨e1, ?_⟩, rfl, c3, c4, ?_⟩
  · simp only [List.all_append, e2, Bool.true_and]
    simp [Reader.isSource]
  · have hp := c5
    simp only [FormBody.pending, c4, List.append_nil] at hp ⊢
    rw [queueBytes_append _ _ e2, hp]
    simp only [queueBytes_cons, queueBytes_nil, Reader.bytes, List.append_nil, List.append_assoc,
      fileHeader_lines esc n fn rd]

theorem CreateFromReader_clean (esc : Bytes → Bytes) (n fn : Bytes) (rd : Stream)
    (hrd : cleanScript rd.script = true) (w : FormBody) (hc : cleanList w.readers = true) :
    cleanList (w.CreateFromReader esc n fn rd).2.readers = true := by
  have h1 := CreatePart_clean
    (MIMEHeader.Set (MIMEHeader.Set [] (ascii "Content-Disposition") (fileDisposition esc n fn))
        (ascii "Content-Type") (ascii "application/octet-stream")) w hc
  have hcf : w.CreateFormFile esc n fn = w.CreatePart
      (MIMEHeader.Set (MIMEHeader.Set [] (ascii "Content-Disposition")
        (fileDisposition esc n fn)) (ascii "Content-Type") (ascii "application/octet-stream")) :=
    rfl
  simp only [FormBody.CreateFromReader, hcf]
  split
  · exact h1
  · simp [cleanList_append, h1, cleanList, Reader.clean, hrd]

theorem ReadAll_Close_total (w : FormBody) (hw : Building w) (sz : Nat → Nat)
    (hsz : ∀ i, 0 < sz i) (fuel : Nat)
    (hfuel : readBound (w.b ++ closingLine w.boundary) (w.readers ++ [Reader.buffer]) ≤ fuel) :
    ∃ out err w2, ReadAll fuel sz w.Close = some (out, err, w2) ∧
      (err = none → out = w.pending ++ closingLine w.boundary ∧
        w2 = { w with closed := true, b := [], readers := [] }) ∧
      (cleanList w.readers = true → err = none) := by
  obtain ⟨h1, h2⟩ := hw
  have hclose : w.Close =
      { w with
        closed := true, b := w.b ++ closingLine w.boundary,
        readers := w.readers ++ [Reader.buffer] } := by
    simp [FormBody.Close, h1]
  have hq : queueBytes (w.b ++ closingLine w.boundary) (w.readers ++ [Reader.buffer])
      = (w.pending ++ closingLine w.boundary, []) := by
    rw [queueBytes_append _ _ h2]
    simp [queueBytes_cons, queueBytes_nil, Reader.bytes, FormBody.pending]
  obtain ⟨out, err, st, i1, i2, i3⟩ := mrReadAll_total fuel sz (w.b ++ closingLine w.boundary)
    (w.readers ++ [Reader.buffer]) hsz (by unfold readBound at hfuel; omega)
  refine ⟨out, err, { w with closed := true, b := st.1, readers := st.2 }, ?_, ?_, ?_⟩
  · rw [ReadAll_closed fuel sz w.Close (by rw [hclose]), hclose]
    simp only [i1, Option.map_some']
  · intro he
    obtain ⟨j1, j2⟩ := i2 he
    rw [hq] at j1 j2
    exact ⟨j1, by rw [j2]⟩
  · intro hc
    exact i3 (by simp [cleanList_append, hc, cleanList, Reader.clean])

theorem ReadAll_Close_building (w : FormBody) (hw : Building w)
    (hc : cleanList w.readers = true) (sz : Nat → Nat)
    (hsz : ∀ i, 0 < sz i) (fuel : Nat)
    (hfuel : readBound (w.b ++ closingLine w.boundary) (w.readers ++ [Reader.buffer]) ≤ fuel) :
    ReadAll fuel sz w.Close = some (w.pending ++ closingLine w.boundary, none,
      { w with closed := true, b := [], readers := [] }) := by
  obtain ⟨out, err, w2, i1, i2, i3⟩ := ReadAll_Close_total w hw sz hsz fuel hfuel
  have he := i3 hc
  obtain ⟨j1, j2⟩ := i2 he
  rw [i1, he, j1, j2]

theorem Read_eq_Read_Close (p : Nat) (w : FormBody) (hne : w.readers ≠ []) :
    w.Read p = w.Close.Read p := by
  obtain ⟨B, b, rs, c⟩ := w
  cases rs with
  | nil => exact absurd rfl hne
  | cons r rest => cases c <;> simp [FormBody.Read, FormBody.Close]

theorem ReadAll_eq_ReadAll_Close (fuel : Nat) (sz : Nat → Nat) (w : FormBody)
    (hne : w.readers ≠ []) : ReadAll fuel sz w = ReadAll fuel sz w.Close := by
  cases fuel with
  | zero => simp [ReadAll]
  | succ fuel => rw [ReadAll, ReadAll, Read_eq_Read_Close (sz 0) w hne]

theorem Part_add_building (esc : Bytes → Bytes) (p : Part) (w : FormBody) (hw : Building w) :
    Building (p.add esc w).2 ∧ (p.add esc w).1 = none ∧
    (p.add esc w).2.boundary = w.boundary ∧
    (p.add esc w).2.b.isEmpty = !p.leavesPending ∧
    (p.add esc w).2.pending = w.pending ++
      (delimiter w.boundary (!w.b.isEmpty) ++ p.headers esc ++ p.content) := by
  cases p with
  | field n v =>
    obtain ⟨c1, c2, c3, c4, c5⟩ := WriteField_building esc n v w hw
    exact ⟨c1, c2, c3, by simp [Part.add, c4, Part.leavesPending], by simpa [Part.add] using c5⟩
  | file n fn rd =>
    obtain ⟨c1, c2, c3, c4, c5⟩ := CreateFromReader_building esc n fn rd w hw
    exact ⟨c1, c2, c3, by simp [Part.add, c4, Part.leavesPending], by simpa [Part.add] using c5⟩

theorem Part_add_clean (esc : Bytes → Bytes) (p : Part) (hp : p.clean = true) (w : FormBody)
    (hc : cleanList w.readers = true) : cleanList (p.add esc w).2.readers = true := by
  cases p with
  | field n v => exact WriteField_clean esc n v w hc
  | file n fn rd => exact CreateFromReader_clean esc n fn rd (by simpa [Part.clean] using hp) w hc

theorem addParts_building (esc : Bytes → Bytes) : ∀ (parts : List Part) (w : FormBody),
    Building w →
    Building (addParts esc parts w) ∧ (addParts esc parts w).boundary = w.boundary ∧
    (addParts esc parts w).pending = w.pending ++
      (List.zipWith (fun h c => h ++ c)
        (headerBlocks esc w.boundary (!w.b.isEmpty) parts) (parts.map Part.content)).flatten
  | [], w, hw => by simp [addParts, headerBlocks, hw]
  | p :: ps, w, hw => by
    obtain ⟨c1, _, c3, c4, c5⟩ := Part_add_building esc p w hw
    obtain ⟨i1, i2, i3⟩ := addParts_building esc ps (p.add esc w).2 c1
    have hstep : addParts esc (p :: ps) w = addParts esc ps (p.add esc w).2 := rfl
    rw [hstep]
    refine ⟨i1, by rw [i2, c3], ?_⟩
    rw [i3, c5, c3, c4]
    simp [headerBlocks, List.append_assoc]

theorem addParts_clean (esc : Bytes → Bytes) : ∀ (parts : List Part) (w : FormBody),
    (∀ p ∈ parts, p.clean = true) → cleanList w.readers = true →
    cleanList (addParts esc parts w).readers = true
  | [], _, _, hc => hc
  | p :: ps, w, hp, hc =>
    addParts_clean esc ps (p.add esc w).2 (fun q hq => hp q (List.mem_cons_of_mem _ hq))
      (Part_add_clean esc p (hp p (List.mem_cons_self _ _)) w hc)

/-! ## The segment reader -/

/-- C4. For every queue `rs` of sources that fail with nothing but end-of-data
and every sequence `sz` of non-empty read buffers, calling `multiReader.Read`
until it reports end-of-stream succeeds (within `readBound b rs` calls) and
returns exactly the bytes of the sources in queue order, `queueBytes b rs`,
whatever `sz` is; the queue is empty afterwards. -/
theorem multiReader_ReadAll (rs : List Reader) (b : Bytes) (sz : Nat → Nat)
    (hclean : cleanList rs = true) (hsz : ∀ i, 0 < sz i) (fuel : Nat)
    (hfuel : readBound b rs ≤ fuel) :
    mrReadAll fuel sz b rs = some ((queueBytes b rs).1, none, (queueBytes b rs).2, []) :=
  mrReadAll_drain fuel sz b rs hsz hclean (by unfold readBound at hfuel; omega)

theorem multiReader_ReadAll_witness :
    mrReadAll 16 (fun i => i + 1) []
        [Reader.bytesReader [1, 2, 3],
         Reader.stream ⟨0, [⟨[4], none⟩, ⟨[], none⟩, ⟨[5, 6], some Err.EOF⟩], none⟩,
         Reader.multi [Reader.bytesReader [7]], Reader.eofReader]
      = some ([1, 2, 3, 4, 5, 6, 7], none, [], []) :=
  multiReader_ReadAll
    [Reader.bytesReader [1, 2, 3],
     Reader.stream ⟨0, [⟨[4], none⟩, ⟨[], none⟩, ⟨[5, 6], some Err.EOF⟩], none⟩,
     Reader.multi [Reader.bytesReader [7]], Reader.eofReader]
    [] (fun i => i + 1) (by decide) (fun i => Nat.succ_pos i) 16 (by decide)

/-- C5. Whatever the sources return and whatever the buffer length, a call of
`multiReader.Read` that reports end-of-data leaves the queue empty. -/
theorem mrRead_EOF_queue_empty (p : Nat) : ∀ (rs : List Reader) (b : Bytes),
    (mrRead p b rs).1.err = some Err.EOF → (mrRead p b rs).2.2 = []
  | [], b, _ => by simp [mrRead_nil]
  | r :: rest, b, he => by
    by_cases h : ∀ inner, r = Reader.multi inner → rest = [] → False
    · rw [mrRead.eq_3 p b r rest h] at he ⊢
      by_cases e1 : (Reader.Read p b r).1.err = some Err.EOF
      · rw [if_pos e1] at he ⊢
        by_cases hn : (Reader.Read p b r).1.n ≠ []
        · rw [if_pos hn] at he ⊢
          cases rest with
          | nil => rfl
          | cons r2 rest2 => simp at he
        · rw [if_neg hn] at he ⊢
          exact mrRead_EOF_queue_empty p rest (Reader.Read p b r).2.1 he
      · rw [if_neg e1] at he
        exact absurd he e1
    · push_neg at h
      obtain ⟨inner, rfl, rfl, _⟩ := h
      rw [mrRead_flatten] at he ⊢
      exact mrRead_EOF_queue_empty p inner b he

theorem mrRead_EOF_queue_empty_witness :
    (mrRead 4 [] [Reader.eofReader, Reader.stream ⟨1, [⟨[7, 8], some Err.EOF⟩], none⟩]).2.2 = [] :=
  mrRead_EOF_queue_empty 4 [Reader.eofReader, Reader.stream ⟨1, [⟨[7, 8], some Err.EOF⟩], none⟩]
    [] (by decide)

/-! ## The stream of a body -/

theorem headerBlocks_forall (esc : Bytes → Bytes) (B : Bytes) : ∀ (parts : List Part) (lead : Bool),
    List.Forall₂ (fun hb p => hb = delimiter B false ++ p.headers esc ∨
      hb = delimiter B true ++ p.headers esc) (headerBlocks esc B lead parts) parts
  | [], _ => by simp [headerBlocks]
  | p :: ps, lead => by
    rw [headerBlocks]
    refine List.Forall₂.cons ?_ (headerBlocks_forall esc B ps _)
    cases lead <;> simp

theorem zipWith_flatten_length : ∀ (hs cs : List Bytes), hs.length = cs.length →
    (List.zipWith (fun h c => h ++ c) hs cs).flatten.length
      = (hs.map List.length).sum + (cs.map List.length).sum
  | [], [], _ => by simp
  | [], _ :: _, h => by simp at h
  | _ :: _, [], h => by simp at h
  | a :: hs, c :: cs, h => by
    have ih := zipWith_flatten_length hs cs (by simpa using h)
    simp only [List.zipWith_cons_cons, List.flatten_cons, List.length_append, ih, List.map_cons,
      List.sum_cons]
    omega

theorem closedBody_stream (esc : Bytes → Bytes) (B : Bytes) (parts : List Part)
    (sz : Nat → Nat) (hclean : ∀ p ∈ parts, p.clean = true) (hsz : ∀ i, 0 < sz i) (fuel : Nat)
    (hfuel : readBound (closedBody esc B parts).b (closedBody esc B parts).readers ≤ fuel) :
    ReadAll fuel sz (closedBody esc B parts) = some
      ((List.zipWith (fun h c => h ++ c) (headerBlocks esc B false parts)
          (parts.map Part.content)).flatten ++ closingLine B, none,
        { boundary := B, b := [], readers := [], closed := true }) := by
  obtain ⟨h1, h2, h3⟩ := addParts_building esc parts (NewFormBody B) (Building_new B)
  have hcl := addParts_clean esc parts (NewFormBody B) hclean rfl
  have hB : (NewFormBody B).boundary = B := rfl
  have hclose : closedBody esc B parts =
      { addParts esc parts (NewFormBody B) with
        closed := true
        b := (addParts esc parts (NewFormBody B)).b ++ closingLine B
        readers := (addParts esc parts (NewFormBody B)).readers ++ [Reader.buffer] } := by
    simp [closedBody, FormBody.Close, h1.1, h2, hB]
  rw [hclose] at hfuel
  have := ReadAll_Close_building (addParts esc parts (NewFormBody B)) h1 hcl sz hsz fuel
    (by rw [h2, hB]; exact hfuel)
  rw [closedBody, this, h3, h2, hB]
  simp [FormBody.pending, NewFormBody, queueBytes_nil]

/-- C2. For every list `parts` of `WriteField` and `CreateFromReader` calls on a
new body (the streams failing with nothing but end-of-data), followed by
`Close`, and every sequence `sz` of non-empty read buffers, reading to
end-of-stream succeeds and returns, in call order, each part's header block
(its delimiter line, with or without the leading line break, its header lines
and the blank line) followed by the field value or by all the bytes of the
streamed source, and then the closing boundary line; the length of the stream
is the length of the header blocks and of the closing line plus the sum of the
lengths of the values and sources. -/
theorem mixed_body_stream (esc : Bytes → Bytes) (B : Bytes) (parts : List Part)
    (sz : Nat → Nat) (hclean : ∀ p ∈ parts, p.clean = true) (hsz : ∀ i, 0 < sz i) (fuel : Nat)
    (hfuel : readBound (closedBody esc B parts).b (closedBody esc B parts).readers ≤ fuel) :
    List.Forall₂ (fun hb p => hb = delimiter B false ++ p.headers esc ∨
      hb = delimiter B true ++ p.headers esc) (headerBlocks esc B false parts) parts ∧
    ReadAll fuel sz (closedBody esc B parts) = some
      ((List.zipWith (fun h c => h ++ c) (headerBlocks esc B false parts)
          (parts.map Part.content)).flatten ++ closingLine B, none,
        { boundary := B, b := [], readers := [], closed := true }) ∧
    ((List.zipWith (fun h c => h ++ c) (headerBlocks esc B false parts)
          (parts.map Part.content)).flatten ++ closingLine B).length
      = (((headerBlocks esc B false parts).map List.length).sum + (closingLine B).length)
        + ((parts.map Part.content).map List.length).sum := by
  have hall := headerBlocks_forall esc B parts false
  refine ⟨hall, closedBody_stream esc B parts sz hclean hsz fuel hfuel, ?_⟩
  rw [List.length_append, zipWith_flatten_length _ _ (by simpa using hall.length_eq)]
  omega

theorem mixed_body_stream_witness :
    List.Forall₂ (fun hb p => hb = delimiter [66] false ++ p.headers id ∨
        hb = delimiter [66] true ++ p.headers id)
      (headerBlocks id [66] false
        [Part.field [97] [120, 121], Part.file [98] [99] ⟨0, [⟨[1, 2, 3], none⟩], none⟩])
      [Part.field [97] [120, 121], Part.file [98] [99] ⟨0, [⟨[1, 2, 3], none⟩], none⟩] ∧
    ReadAll 200 (fun _ => 5) (closedBody id [66]
        [Part.field [97] [120, 121], Part.file [98] [99] ⟨0, [⟨[1, 2, 3], none⟩], none⟩])
      = some
      ((List.zipWith (fun h c => h ++ c) (headerBlocks id [66] false
          [Part.field [97] [120, 121], Part.file [98] [99] ⟨0, [⟨[1, 2, 3], none⟩], none⟩])
          ([Part.field [97] [120, 121],
            Part.file [98] [99] ⟨0, [⟨[1, 2, 3], none⟩], none⟩].map Part.content)).flatten
            ++ closingLine [66], none,
        { boundary := [66], b := [], readers := [], closed := true }) ∧
    ((List.zipWith (fun h c => h ++ c) (headerBlocks id [66] false
          [Part.field [97] [120, 121], Part.file [98] [99] ⟨0, [⟨[1, 2, 3], none⟩], none⟩])
          ([Part.field [97] [120, 121],
            Part.file [98] [99] ⟨0, [⟨[1, 2, 3], none⟩], none⟩].map Part.content)).flatten
            ++ closingLine [66]).length
      = (((headerBlocks id [66] false
          [Part.field [97] [120, 121],
            Part.file [98] [99] ⟨0, [⟨[1, 2, 3], none⟩], none⟩]).map List.length).sum
          + (closingLine [66]).length)
        + (([Part.field [97] [120, 121],
            Part.file [98] [99] ⟨0, [⟨[1, 2, 3], none⟩], none⟩].map Part.content).map
              List.length).sum :=
  mixed_body_stream id [66]
    [Part.field [97] [120, 121], Part.file [98] [99] ⟨0, [⟨[1, 2, 3], none⟩], none⟩]
    (fun _ => 5) (by decide) (fun _ => Nat.succ_pos 4) 200 (by decide)

theorem fieldsWire_eq (esc : Bytes → Bytes) (B : Bytes) : ∀ (fields : List (Bytes × Bytes))
    (lead : Bool), (∀ f ∈ fields, f.2 ≠ []) →
    (List.zipWith (fun h c => h ++ c)
        (headerBlocks esc B lead (fields.map (fun f => Part.field f.1 f.2)))
        ((fields.map (fun f => Part.field f.1 f.2)).map Part.content)).flatten ++ closingLine B
      = fieldsWire esc B lead fields
  | [], _, _ => by simp [headerBlocks, fieldsWire]
  | (n, v) :: fs, lead, hne => by
    have hv : v ≠ [] := hne (n, v) (List.mem_cons_self _ _)
    have hlp : (Part.field n v).leavesPending = true := by
      cases v with
      | nil => exact absurd rfl hv
      | cons a t => rfl
    have ih := fieldsWire_eq esc B fs true (fun f hf => hne f (List.mem_cons_of_mem _ hf))
    simp only [List.map_cons, headerBlocks, hlp, List.zipWith_cons_cons, List.flatten_cons,
      fieldsWire, Part.content, List.append_assoc]
    simp only [List.map_map] at ih
    rw [← ih]
    simp [List.append_assoc, Function.comp_def]

theorem writeFields_nonempty_stream (esc : Bytes → Bytes) (B : Bytes)
    (fields : List (Bytes × Bytes)) (hne : ∀ f ∈ fields, f.2 ≠ []) (sz : Nat → Nat)
    (hsz : ∀ i, 0 < sz i) (fuel : Nat)
    (hfuel : readBound (closedBody esc B (fields.map (fun f => Part.field f.1 f.2))).b
      (closedBody esc B (fields.map (fun f => Part.field f.1 f.2))).readers ≤ fuel) :
    ReadAll fuel sz (closedBody esc B (fields.map (fun f => Part.field f.1 f.2)))
      = some (fieldsWire esc B false fields, none,
          { boundary := B, b := [], readers := [], closed := true }) := by
  have hclean : ∀ p ∈ fields.map (fun f => Part.field f.1 f.2), p.clean = true := by
    intro p hp
    obtain ⟨f, _, rfl⟩ := List.mem_map.mp hp
    rfl
  rw [closedBody_stream esc B _ sz hclean hsz fuel hfuel, fieldsWire_eq esc B fields false hne]

/-- C1 (failing input). `WriteField("a", "")`, `WriteField("b", "x")`, `Close` on a
body with boundary `B`: the stream read to the end is
`--B\r\n<header a>\r\n\r\n--B\r\n<header b>\r\n\r\nx\r\n--B--\r\n`, with no line break
before the delimiter of the second part, and so differs from `fieldsWire`, the
stream with `\r\n--B\r\n` before every later part. -/
theorem writeField_empty_value_stream :
    (ReadAll 8 (fun _ => 512)
        (closedBody id (ascii "B")
          [Part.field (ascii "a") [], Part.field (ascii "b") (ascii "x")])).map
        (fun t => (t.1, t.2.1))
      = some (dashes ++ ascii "B" ++ crlf ++
          ascii "Content-Disposition: form-data; name=" ++ [34] ++ ascii "a" ++ [34] ++ crlf ++
          crlf ++
          dashes ++ ascii "B" ++ crlf ++
          ascii "Content-Disposition: form-data; name=" ++ [34] ++ ascii "b" ++ [34] ++ crlf ++
          crlf ++ ascii "x" ++
          crlf ++ dashes ++ ascii "B" ++ dashes ++ crlf, none) ∧
    (ReadAll 8 (fun _ => 512)
        (closedBody id (ascii "B")
          [Part.field (ascii "a") [], Part.field (ascii "b") (ascii "x")])).map
        (fun t => t.1)
      ≠ some (fieldsWire id (ascii "B") false [(ascii "a", []), (ascii "b", ascii "x")]) := by
  constructor
  · decide
  · decide

/-- C3 (failing input). The calls of `Test_1` (field, field, file, field, then
reading to the end) with boundary `B` and a file holding `FILE`: in the stream
the bytes of the file are followed at once by `--B\r\n`, the delimiter of the
fourth part, with no `\r\n` before it. -/
theorem test1_stream :
    (ReadAll 16 (fun _ => 512) (test1Body ⟨0, [⟨ascii "FILE", none⟩], none⟩)).map
        (fun t => (t.1, t.2.1))
      = some (dashes ++ ascii "B" ++ crlf ++
          ascii "Content-Disposition: form-data; name=" ++ [34] ++ ascii "f1" ++ [34] ++ crlf ++
          crlf ++ ascii "v1" ++
          crlf ++ dashes ++ ascii "B" ++ crlf ++
          ascii "Content-Disposition: form-data; name=" ++ [34] ++ ascii "f2" ++ [34] ++ crlf ++
          crlf ++ ascii "v2" ++
          crlf ++ dashes ++ ascii "B" ++ crlf ++
          ascii "Content-Disposition: form-data; name=" ++ [34] ++ ascii "f4" ++ [34] ++
            ascii "; filename=" ++ [34] ++ ascii "f44" ++ [34] ++ crlf ++
          ascii "Content-Type: application/octet-stream" ++ crlf ++
          crlf ++ ascii "FILE" ++
          dashes ++ ascii "B" ++ crlf ++
          ascii "Content-Disposition: form-data; name=" ++ [34] ++ ascii "f3" ++ [34] ++ crlf ++
          crlf ++ ascii "v3" ++
          crlf ++ dashes ++ ascii "B" ++ dashes ++ crlf, none) := by
  decide!

/-! ## Closing -/

theorem Close_closed (w : FormBody) : w.Close.closed = true := by
  cases h : w.closed <;> simp [FormBody.Close, h]

theorem Close_of_closed (w : FormBody) (hw : w.closed = true) : w.Close = w := by
  simp [FormBody.Close, hw]

theorem Close_of_open (w : FormBody) (hw : w.closed = false) :
    w.Close =
      { w with
        closed := true
        b := w.b ++ closingLine w.boundary
        readers := w.readers ++ [Reader.buffer] } := by
  simp [FormBody.Close, hw]

theorem Read_of_empty (p : Nat) (w : FormBody) (hw : w.readers = []) :
    w.Read p = (⟨[], some Err.EOF, []⟩, w) := by
  simp [FormBody.Read, hw]

theorem Read_closed (p : Nat) (w : FormBody) (hne : w.readers ≠ []) :
    (w.Read p).2.closed = true := by
  have hne2 : w.readers.isEmpty = false := by
    cases h : w.readers with
    | nil => exact absurd h hne
    | cons r rest => rfl
  cases h : w.closed <;> simp [FormBody.Read, hne2, h, FormBody.Close]

theorem CreateFormField_eq (esc : Bytes → Bytes) (n : Bytes) (w : FormBody) :
    w.CreateFormField esc n =
      w.CreatePart (MIMEHeader.Set [] (ascii "Content-Disposition") (fieldDisposition esc n)) :=
  rfl

theorem CreateFormFile_eq (esc : Bytes → Bytes) (n fn : Bytes) (w : FormBody) :
    w.CreateFormFile esc n fn = w.CreatePart
      (MIMEHeader.Set (MIMEHeader.Set [] (ascii "Content-Disposition")
        (fileDisposition esc n fn)) (ascii "Content-Type") (ascii "application/octet-stream")) :=
  rfl

theorem CreatePart_err (h : MIMEHeader) (w : FormBody) :
    (w.CreatePart h).1 = if w.closed then some Err.Closed else none := by
  cases hw : w.closed
  · rw [CreatePart_open h w hw]; rfl
  · rw [CreatePart_closed h w hw]; rfl

theorem WriteField_closed (esc : Bytes → Bytes) (n v : Bytes) (w : FormBody)
    (hw : w.closed = true) : w.WriteField esc n v = (some Err.Closed, w) := by
  simp [FormBody.WriteField, CreateFormField_eq, CreatePart_closed _ w hw]

theorem WriteField_err (esc : Bytes → Bytes) (n v : Bytes) (w : FormBody) :
    (w.WriteField esc n v).1 = if w.closed then some Err.Closed else none := by
  cases hw : w.closed
  · simp [FormBody.WriteField, CreateFormField_eq, CreatePart_open _ w hw]
  · rw [WriteField_closed esc n v w hw]; rfl

theorem CreateFromReader_closed (esc : Bytes → Bytes) (n fn : Bytes) (rd : Stream)
    (w : FormBody) (hw : w.closed = true) :
    w.CreateFromReader esc n fn rd = (some Err.Closed, w) := by
  simp [FormBody.CreateFromReader, CreateFormFile_eq, CreatePart_closed _ w hw]

theorem CreateFromReader_err (esc : Bytes → Bytes) (n fn : Bytes) (rd : Stream)
    (w : FormBody) :
    (w.CreateFromReader esc n fn rd).1 = if w.closed then some Err.Closed else none := by
  cases hw : w.closed
  · simp [FormBody.CreateFromReader, CreateFormFile_eq, CreatePart_open _ w hw]
  · rw [CreateFromReader_closed esc n fn rd w hw]; rfl

/-- C8. `CreatePart`, `CreateFormField`, `CreateFormFile`, `WriteField` and
`CreateFromReader` return an error exactly when the body is closed; a failing
call leaves the body (pending buffer, queue, closed flag) as it was, so that
`CreateFromReader` does not enqueue its stream; and the body is closed after
`Close` and after a `Read` that found a non-empty queue, so that every one of
these calls fails from then on. -/
theorem part_calls_fail_iff_closed (esc : Bytes → Bytes) (w : FormBody) (h : MIMEHeader)
    (n fn v : Bytes) (rd : Stream) (p : Nat) :
    (((w.CreatePart h).1 ≠ none ↔ w.closed = true) ∧
     ((w.CreateFormField esc n).1 ≠ none ↔ w.closed = true) ∧
     ((w.CreateFormFile esc n fn).1 ≠ none ↔ w.closed = true) ∧
     ((w.WriteField esc n v).1 ≠ none ↔ w.closed = true) ∧
     ((w.CreateFromReader esc n fn rd).1 ≠ none ↔ w.closed = true)) ∧
    (w.closed = true →
      (w.CreatePart h).2 = w ∧ (w.CreateFormField esc n).2 = w ∧
      (w.CreateFormFile esc n fn).2 = w ∧ (w.WriteField esc n v).2 = w ∧
      (w.CreateFromReader esc n fn rd).2 = w) ∧
    (w.Close.closed = true ∧ (w.Close.CreatePart h).1 ≠ none) ∧
    (w.readers ≠ [] → (w.Read p).2.closed = true ∧ ((w.Read p).2.CreatePart h).1 ≠ none) := by
  refine ⟨⟨?_, ?_, ?_, ?_, ?_⟩, ?_, ?_, ?_⟩
  · rw [CreatePart_err]; cases w.closed <;> simp
  · rw [CreateFormField_eq, CreatePart_err]; cases w.closed <;> simp
  · rw [CreateFormFile_eq, CreatePart_err]; cases w.closed <;> simp
  · rw [WriteField_err]; cases w.closed <;> simp
  · rw [CreateFromReader_err]; cases w.closed <;> simp
  · intro hw
    refine ⟨?_, ?_, ?_, ?_, ?_⟩
    · rw [CreatePart_closed h w hw]
    · rw [CreateFormField_eq, CreatePart_closed _ w hw]
    · rw [CreateFormFile_eq, CreatePart_closed _ w hw]
    · rw [WriteField_closed esc n v w hw]
    · rw [CreateFromReader_closed esc n fn rd w hw]
  · refine ⟨Close_closed w, ?_⟩
    rw [CreatePart_err, Close_closed]; simp
  · intro hne
    refine ⟨Read_closed p w hne, ?_⟩
    rw [CreatePart_err, Read_closed p w hne]; simp

theorem part_calls_fail_iff_closed_witness :
    ((NewFormBody [66]).Close.CreateFromReader id [97] [98] ⟨0, [], none⟩).2
      = (NewFormBody [66]).Close :=
  ((part_calls_fail_iff_closed id (NewFormBody [66]).Close [] [97] [98] [] ⟨0, [], none⟩ 1).2.1
    (by decide)).2.2.2.2

theorem run_cons (esc : Bytes → Bytes) (op : Op) (ops : List Op) (w : FormBody) :
    run esc (op :: ops) w = run esc ops (op.apply esc w) := rfl

theorem run_append (esc : Bytes → Bytes) (ops1 ops2 : List Op) (w : FormBody) :
    run esc (ops1 ++ ops2) w = run esc ops2 (run esc ops1 w) := by
  simp [run, List.foldl_append]

theorem apply_closed (esc : Bytes → Bytes) (op : Op) (w : FormBody) (hw : w.closed = true) :
    (op.apply esc w).closed = true := by
  cases op with
  | CreatePart h => simp [Op.apply, CreatePart_closed h w hw, hw]
  | Write d => simpa [Op.apply, FormBody.Write] using hw
  | CreateFormField n => simp [Op.apply, CreateFormField_eq, CreatePart_closed _ w hw, hw]
  | CreateFormFile n fn => simp [Op.apply, CreateFormFile_eq, CreatePart_closed _ w hw, hw]
  | WriteField n v => simp [Op.apply, WriteField_closed esc n v w hw, hw]
  | CreateFromReader n fn rd => simp [Op.apply, CreateFromReader_closed esc n fn rd w hw, hw]
  | Close => simp [Op.apply, Close_closed]
  | Read p =>
    by_cases hne : w.readers = []
    · simp [Op.apply, Read_of_empty p w hne, hw]
    · simp [Op.apply, Read_closed p w hne]

theorem run_closed (esc : Bytes → Bytes) : ∀ (ops : List Op) (w : FormBody),
    w.closed = true → (run esc ops w).closed = true
  | [], _, hw => hw
  | op :: ops, w, hw => run_closed esc ops _ (apply_closed esc op w hw)

theorem apply_open (esc : Bytes → Bytes) (op : Op) (w : FormBody)
    (h : (op.apply esc w).closed = false) : w.closed = false := by
  cases hw : w.closed
  · rfl
  · rw [apply_closed esc op w hw] at h; exact h

theorem run_open (esc : Bytes → Bytes) (ops : List Op) (w : FormBody)
    (h : (run esc ops w).closed = false) : w.closed = false := by
  cases hw : w.closed
  · rfl
  · rw [run_closed esc ops w hw] at h; exact h

theorem CreatePart_readers_ne (h : MIMEHeader) (w : FormBody) (hw : w.closed = false) :
    (w.CreatePart h).2.readers ≠ [] := by
  rw [CreatePart_open h w hw]
  simp

theorem apply_readers_ne (esc : Bytes → Bytes) (op : Op) (w : FormBody)
    (h : (op.apply esc w).closed = false) (hne : w.readers ≠ [] ∨ op.opensPart = true) :
    (op.apply esc w).readers ≠ [] := by
  have hw : w.closed = false := apply_open esc op w h
  cases op with
  | CreatePart hd => exact CreatePart_readers_ne hd w hw
  | Write d =>
    rcases hne with hne | hne
    · simpa [Op.apply, FormBody.Write] using hne
    · simp [Op.opensPart] at hne
  | CreateFormField n => exact CreatePart_readers_ne _ w hw
  | CreateFormFile n fn => exact CreatePart_readers_ne _ w hw
  | WriteField n v =>
    have := CreatePart_readers_ne
      (MIMEHeader.Set [] (ascii "Content-Disposition") (fieldDisposition esc n)) w hw
    simpa [Op.apply, FormBody.WriteField, CreateFormField_eq, CreatePart_err, hw,
      FormBody.Write] using this
  | CreateFromReader n fn rd =>
    simp [Op.apply, FormBody.CreateFromReader, CreateFormFile_eq, CreatePart_err, hw]
  | Close => simp [Op.apply, Close_closed] at h
  | Read p =>
    rcases hne with hne | hne
    · simp [Op.apply, Read_closed p w hne] at h
    · simp [Op.opensPart] at hne

theorem run_readers_ne (esc : Bytes → Bytes) : ∀ (ops : List Op) (w : FormBody),
    (run esc ops w).closed = false → (w.readers ≠ [] ∨ ∃ op ∈ ops, op.opensPart = true) →
    (run esc ops w).readers ≠ []
  | [], w, _, hne => by
    rcases hne with hne | ⟨op, hop, _⟩
    · exact hne
    · simp at hop
  | op :: ops, w, h, hne => by
    rw [run_cons] at h ⊢
    have h1 : (op.apply esc w).closed = false := run_open esc ops _ h
    refine run_readers_ne esc ops _ h ?_
    rcases hne with hne | ⟨op2, hop2, ho⟩
    · exact Or.inl (apply_readers_ne esc op w h1 (Or.inl hne))
    · rcases List.mem_cons.mp hop2 with rfl | hin
      · exact Or.inl (apply_readers_ne esc op2 w h1 (Or.inr ho))
      · exact Or.inr ⟨op2, hin, ho⟩

theorem CreatePart_boundary (h : MIMEHeader) (w : FormBody) :
    (w.CreatePart h).2.boundary = w.boundary := by
  cases hw : w.closed
  · rw [CreatePart_open h w hw]
  · rw [CreatePart_closed h w hw]

theorem apply_boundary (esc : Bytes → Bytes) (op : Op) (w : FormBody) :
    (op.apply esc w).boundary = w.boundary := by
  cases op with
  | CreatePart h => exact CreatePart_boundary h w
  | Write d => rfl
  | CreateFormField n => exact CreatePart_boundary _ w
  | CreateFormFile n fn => exact CreatePart_boundary _ w
  | WriteField n v =>
    have := CreatePart_boundary
      (MIMEHeader.Set [] (ascii "Content-Disposition") (fieldDisposition esc n)) w
    cases hw : w.closed <;>
      simpa [Op.apply, FormBody.WriteField, CreateFormField_eq, CreatePart_err, hw,
        FormBody.Write] using this
  | CreateFromReader n fn rd =>
    have := CreatePart_boundary
      (MIMEHeader.Set (MIMEHeader.Set [] (ascii "Content-Disposition")
        (fileDisposition esc n fn)) (ascii "Content-Type") (ascii "application/octet-stream")) w
    cases hw : w.closed <;>
      simpa [Op.apply, FormBody.CreateFromReader, CreateFormFile_eq, CreatePart_err, hw]
        using this
  | Close => cases hw : w.closed <;> simp [Op.apply, FormBody.Close, hw]
  | Read p =>
    cases hr : w.readers.isEmpty <;> cases hw : w.closed <;>
      simp [Op.apply, FormBody.Read, FormBody.Close, hr, hw]

theorem run_boundary (esc : Bytes → Bytes) : ∀ (ops : List Op) (w : FormBody),
    (run esc ops w).boundary = w.boundary
  | [], _ => rfl
  | op :: ops, w => by rw [run_cons, run_boundary esc ops, apply_boundary]

/-- C6. On a body reached from a new body by any calls of which at least one
opened a part, and which is still open, reading to end-of-stream gives the same
result as `Close` followed by reading to end-of-stream: every `Read` is the
`Read` of the closed body, where `Close` has set the flag and appended the
closing boundary line to the buffer, which it enqueued. -/
theorem read_without_Close (esc : Bytes → Bytes) (B : Bytes) (ops : List Op)
    (hpart : ∃ op ∈ ops, op.opensPart = true)
    (hopen : (run esc ops (NewFormBody B)).closed = false) :
    (∀ fuel sz, ReadAll fuel sz (run esc ops (NewFormBody B))
      = ReadAll fuel sz (run esc ops (NewFormBody B)).Close) ∧
    (∀ p, (run esc ops (NewFormBody B)).Read p = (run esc ops (NewFormBody B)).Close.Read p ∧
      ((run esc ops (NewFormBody B)).Read p).2.closed = true) ∧
    (run esc ops (NewFormBody B)).Close =
      { boundary := B
        b := (run esc ops (NewFormBody B)).b ++ closingLine B
        readers := (run esc ops (NewFormBody B)).readers ++ [Reader.buffer]
        closed := true } := by
  have hne := run_readers_ne esc ops (NewFormBody B) hopen (Or.inr hpart)
  refine ⟨fun fuel sz => ReadAll_eq_ReadAll_Close fuel sz _ hne,
    fun p => ⟨Read_eq_Read_Close p _ hne, Read_closed p _ hne⟩, ?_⟩
  rw [Close_of_open _ hopen, run_boundary]
  rfl

theorem read_without_Close_witness :
    ReadAll 5 (fun _ => 512) (run id [Op.WriteField [97] [120]] (NewFormBody [66]))
      = ReadAll 5 (fun _ => 512) (run id [Op.WriteField [97] [120]] (NewFormBody [66])).Close :=
  (read_without_Close id [66] [Op.WriteField [97] [120]]
    ⟨Op.WriteField [97] [120], List.mem_singleton_self _, rfl⟩ (by decide)).1 5 (fun _ => 512)

theorem closings_of_closed (esc : Bytes → Bytes) : ∀ (ops : List Op) (w : FormBody),
    w.closed = true → closings esc w ops = 0
  | [], _, _ => rfl
  | op :: ops, w, hw => by
    rw [closings, closings_of_closed esc ops _ (apply_closed esc op w hw)]
    simp [hw]

theorem closings_le_one (esc : Bytes → Bytes) : ∀ (ops : List Op) (w : FormBody),
    closings esc w ops ≤ 1
  | [], _ => by simp [closings]
  | op :: ops, w => by
    rw [closings]
    by_cases h : w.closed = false ∧ (op.apply esc w).closed = true
    · rw [if_pos h, closings_of_closed esc ops _ h.2]
    · rw [if_neg h]
      have := closings_le_one esc ops (op.apply esc w)
      omega

theorem closings_eq_one_iff (esc : Bytes → Bytes) : ∀ (ops : List Op) (w : FormBody),
    w.closed = false → (closings esc w ops = 1 ↔ (run esc ops w).closed = true)
  | [], w, hw => by simp [closings, run, hw]
  | op :: ops, w, hw => by
    rw [closings, run_cons]
    cases h : (op.apply esc w).closed
    · have ih := closings_eq_one_iff esc ops (op.apply esc w) h
      simp only [hw, true_and, Bool.false_eq_true, if_false, Nat.zero_add]
      exact ih
    · simp [hw, closings_of_closed esc ops _ h, run_closed esc ops _ h]

theorem apply_closes (esc : Bytes → Bytes) (op : Op) (w : FormBody) (hw : w.closed = false) :
    (op.apply esc w).closed = true ↔
      (op = Op.Close ∨ ∃ p, op = Op.Read p ∧ w.readers ≠ []) := by
  cases op with
  | CreatePart h => simp [Op.apply, CreatePart_open h w hw, hw]
  | Write d => simp [Op.apply, FormBody.Write, hw]
  | CreateFormField n => simp [Op.apply, CreateFormField_eq, CreatePart_open _ w hw, hw]
  | CreateFormFile n fn => simp [Op.apply, CreateFormFile_eq, CreatePart_open _ w hw, hw]
  | WriteField n v =>
    simp [Op.apply, FormBody.WriteField, CreateFormField_eq, CreatePart_open _ w hw, hw,
      FormBody.Write]
  | CreateFromReader n fn rd =>
    simp [Op.apply, FormBody.CreateFromReader, CreateFormFile_eq, CreatePart_open _ w hw, hw]
  | Close => simp [Op.apply, Close_closed]
  | Read p =>
    by_cases hne : w.readers = []
    · simp [Op.apply, Read_of_empty p w hne, hw, hne]
    · simp [Op.apply, Read_closed p w hne, hne]

theorem run_closed_iff (esc : Bytes → Bytes) : ∀ (ops : List Op) (w : FormBody),
    w.closed = false →
    ((run esc ops w).closed = true ↔ ∃ ops1 op ops2, ops = ops1 ++ op :: ops2 ∧
      (op = Op.Close ∨ ∃ p, op = Op.Read p ∧ (run esc ops1 w).readers ≠ []))
  | [], w, hw => by simp [run, hw]
  | op :: ops, w, hw => by
    rw [run_cons]
    cases h : (op.apply esc w).closed
    · rw [run_closed_iff esc ops _ h]
      have hno : ¬ (op = Op.Close ∨ ∃ p, op = Op.Read p ∧ w.readers ≠ []) := by
        rw [← apply_closes esc op w hw, h]; simp
      constructor
      · rintro ⟨ops1, op2, ops2, rfl, hc⟩
        exact ⟨op :: ops1, op2, ops2, rfl, by simpa [run_cons] using hc⟩
      · rintro ⟨ops1, op2, ops2, he, hc⟩
        cases ops1 with
        | nil =>
          simp only [List.nil_append, List.cons.injEq] at he
          obtain ⟨rfl, rfl⟩ := he
          exact absurd hc hno
        | cons o ops1 =>
          simp only [List.cons_append, List.cons.injEq] at he
          obtain ⟨rfl, rfl⟩ := he
          exact ⟨ops1, op2, ops2, rfl, by simpa [run_cons] using hc⟩
    · rw [run_closed esc ops _ h]
      simp only [true_iff]
      exact ⟨[], op, ops, rfl, (apply_closes esc op w hw).mp h⟩

theorem apply_building (esc : Bytes → Bytes) (op : Op) (hb : op.building = true)
    (w : FormBody) (hw : Building w) : Building (op.apply esc w) := by
  cases op with
  | CreatePart h => exact (CreatePart_building h w hw).1
  | Write d => exact (Write_building d w hw).1
  | CreateFormField n => exact (CreatePart_building _ w hw).1
  | CreateFormFile n fn => exact (CreatePart_building _ w hw).1
  | WriteField n v => exact (WriteField_building esc n v w hw).1
  | CreateFromReader n fn rd => exact (CreateFromReader_building esc n fn rd w hw).1
  | Close => simp [Op.building] at hb
  | Read p => simp [Op.building] at hb

theorem apply_clean (esc : Bytes → Bytes) (op : Op) (hb : op.building = true)
    (hc : op.clean = true) (w : FormBody) (hw : cleanList w.readers = true) :
    cleanList (op.apply esc w).readers = true := by
  cases op with
  | CreatePart h => exact CreatePart_clean h w hw
  | Write d => exact hw
  | CreateFormField n => exact CreatePart_clean _ w hw
  | CreateFormFile n fn => exact CreatePart_clean _ w hw
  | WriteField n v => exact WriteField_clean esc n v w hw
  | CreateFromReader n fn rd =>
    exact CreateFromReader_clean esc n fn rd (by simpa [Op.clean] using hc) w hw
  | Close => simp [Op.building] at hb
  | Read p => simp [Op.building] at hb

theorem run_building (esc : Bytes → Bytes) : ∀ (ops : List Op) (w : FormBody),
    (∀ op ∈ ops, op.building = true) → Building w → Building (run esc ops w)
  | [], _, _, hw => hw
  | op :: ops, w, h, hw =>
    run_building esc ops _ (fun o ho => h o (List.mem_cons_of_mem _ ho))
      (apply_building esc op (h op (List.mem_cons_self _ _)) w hw)

theorem run_clean (esc : Bytes → Bytes) : ∀ (ops : List Op) (w : FormBody),
    (∀ op ∈ ops, op.building = true) → (∀ op ∈ ops, op.clean = true) →
    cleanList w.readers = true → cleanList (run esc ops w).readers = true
  | [], _, _, _, hw => hw
  | op :: ops, w, hb, hc, hw =>
    run_clean esc ops _ (fun o ho => hb o (List.mem_cons_of_mem _ ho))
      (fun o ho => hc o (List.mem_cons_of_mem _ ho))
      (apply_clean esc op (hb op (List.mem_cons_self _ _)) (hc op (List.mem_cons_self _ _)) w hw)

/-- C9. For every sequence of part-building calls (`CreatePart` with any headers,
writes on the sink, `CreateFormField`, `CreateFormFile`, `WriteField`,
`CreateFromReader`) on a new body, followed by `Close`, and every sequence of
non-empty read buffers, reading to end-of-stream returns (within the stated
number of calls). Whenever it succeeds the bytes read are some bytes followed
by `\r\n` and then `--B--\r\n`, with nothing after it, and the queue is empty;
it can only fail with the error of a caller-supplied stream, so it succeeds
when every stream fails with nothing but end-of-data. -/
theorem stream_ends_with_closing_line (esc : Bytes → Bytes) (B : Bytes) (ops : List Op)
    (sz : Nat → Nat) (hops : ∀ op ∈ ops, op.building = true)
    (hsz : ∀ i, 0 < sz i) (fuel : Nat)
    (hfuel : readBound (run esc ops (NewFormBody B)).Close.b
      (run esc ops (NewFormBody B)).Close.readers ≤ fuel) :
    ∃ out err w2, ReadAll fuel sz (run esc ops (NewFormBody B)).Close = some (out, err, w2) ∧
      (err = none →
        out = (run esc ops (NewFormBody B)).pending ++ crlf ++ (dashes ++ B ++ dashes ++ crlf) ∧
        w2 = { boundary := B, b := [], readers := [], closed := true }) ∧
      ((∀ op ∈ ops, op.clean = true) → err = none) := by
  have hb := run_building esc ops (NewFormBody B) hops (Building_new B)
  have hB : (run esc ops (NewFormBody B)).boundary = B := run_boundary esc ops _
  rw [Close_of_open _ hb.1] at hfuel
  obtain ⟨out, err, w2, i1, i2, i3⟩ := ReadAll_Close_total _ hb sz hsz fuel hfuel
  refine ⟨out, err, w2, i1, fun he => ?_, fun hc => ?_⟩
  · obtain ⟨j1, j2⟩ := i2 he
    rw [hB] at j1 j2
    exact ⟨by rw [j1]; simp [closingLine, List.append_assoc], j2⟩
  · exact i3 (run_clean esc ops (NewFormBody B) hops hc rfl)

theorem stream_ends_with_closing_line_witness :
    ∃ out err w2,
      ReadAll 200 (fun i => i + 1)
        (run id [Op.CreatePart [([88], [[49], [50]])], Op.Write [1, 2], Op.Write [3],
          Op.CreateFromReader [97] [98] ⟨0, [⟨[4, 5], some Err.EOF⟩], none⟩]
          (NewFormBody [66])).Close = some (out, err, w2) ∧
      (err = none →
        out = (run id [Op.CreatePart [([88], [[49], [50]])], Op.Write [1, 2], Op.Write [3],
          Op.CreateFromReader [97] [98] ⟨0, [⟨[4, 5], some Err.EOF⟩], none⟩]
          (NewFormBody [66])).pending ++ crlf ++ (dashes ++ [66] ++ dashes ++ crlf) ∧
        w2 = { boundary := [66], b := [], readers := [], closed := true }) ∧
      ((∀ op ∈ [Op.CreatePart [([88], [[49], [50]])], Op.Write [1, 2], Op.Write [3],
          Op.CreateFromReader [97] [98] ⟨0, [⟨[4, 5], some Err.EOF⟩], none⟩],
          op.clean = true) → err = none) :=
  stream_ends_with_closing_line id [66]
    [Op.CreatePart [([88], [[49], [50]])], Op.Write [1, 2], Op.Write [3],
      Op.CreateFromReader [97] [98] ⟨0, [⟨[4, 5], some Err.EOF⟩], none⟩]
    (fun i => i + 1) (by decide) (fun i => Nat.succ_pos i) 200 (by decide!)

/-! ## The header block -/

theorem strLess_asymm : ∀ (a b : Bytes), strLess a b = true → strLess b a = false
  | [], [], h => by simp [strLess] at h
  | [], _ :: _, _ => by simp [strLess]
  | _ :: _, [], h => by simp [strLess] at h
  | x :: a, y :: b, h => by
    simp only [strLess, Bool.or_eq_true, Bool.and_eq_true, decide_eq_true_eq] at h
    simp only [strLess, Bool.or_eq_false_iff, Bool.and_eq_false_iff, decide_eq_false_iff_not]
    rcases h with h | ⟨h1, h2⟩
    · exact ⟨by omega, Or.inl (by omega)⟩
    · exact ⟨by omega, Or.inr (strLess_asymm a b h2)⟩

theorem strLess_connex : ∀ (a b : Bytes), strLess a b = false → strLess b a = false → a = b
  | [], [], _, _ => rfl
  | [], _ :: _, h, _ => by simp [strLess] at h
  | _ :: _, [], _, h => by simp [strLess] at h
  | x :: a, y :: b, h1, h2 => by
    simp only [strLess, Bool.or_eq_false_iff, Bool.and_eq_false_iff, decide_eq_false_iff_not]
      at h1 h2
    have hxy : x = y := by omega
    subst hxy
    have ha : strLess a b = false := by
      rcases h1.2 with h | h
      · exact absurd rfl h
      · exact h
    have hb : strLess b a = false := by
      rcases h2.2 with h | h
      · exact absurd rfl h
      · exact h
    rw [strLess_connex a b ha hb]

theorem strLess_trans : ∀ (a b c : Bytes), strLess a b = true → strLess b c = true →
    strLess a c = true
  | [], _, [], _, h => by cases ‹Bytes› <;> simp [strLess] at h
  | [], _, _ :: _, _, _ => by simp [strLess]
  | _ :: _, [], _, h, _ => by simp [strLess] at h
  | _ :: _, _ :: _, [], _, h => by simp [strLess] at h
  | x :: a, y :: b, z :: c, h1, h2 => by
    simp only [strLess, Bool.or_eq_true, Bool.and_eq_true, decide_eq_true_eq] at h1 h2 ⊢
    rcases h1 with h1 | ⟨e1, h1⟩ <;> rcases h2 with h2 | ⟨e2, h2⟩
    · exact Or.inl (by omega)
    · exact Or.inl (by omega)
    · exact Or.inl (by omega)
    · exact Or.inr ⟨by omega, strLess_trans a b c h1 h2⟩

theorem strLE_total (a b : Bytes) : strLE a b ∨ strLE b a := by
  unfold strLE
  cases h : strLess b a
  · exact Or.inl rfl
  · exact Or.inr (strLess_asymm b a h)

theorem strLE_trans (a b c : Bytes) (h1 : strLE a b) (h2 : strLE b c) : strLE a c := by
  unfold strLE at *
  cases h : strLess c a
  · rfl
  · cases hbc : strLess b c
    · have hb : b = c := strLess_connex b c hbc h2
      subst hb
      rw [h] at h1; exact h1
    · rw [strLess_trans b c a hbc h] at h1; exact h1

theorem sortStrings_sorted (keys : List Bytes) : (sortStrings keys).Sorted strLE := by
  haveI : IsTotal Bytes strLE := ⟨strLE_total⟩
  haveI : IsTrans Bytes strLE := ⟨strLE_trans⟩
  exact List.sorted_insertionSort strLE keys

theorem sortStrings_unique (l keys : List Bytes) (hp : l.Perm keys) (hs : l.Sorted strLE) :
    sortStrings keys = l := by
  haveI : IsAntisymm Bytes strLE := ⟨fun a b h1 h2 => strLess_connex a b h2 h1⟩
  exact List.eq_of_perm_of_sorted ((List.perm_insertionSort strLE keys).trans hp.symm)
    (sortStrings_sorted keys) hs

theorem sortStrings_perm (k1 k2 : List Bytes) (hp : k1.Perm k2) :
    sortStrings k1 = sortStrings k2 :=
  sortStrings_unique _ _ ((List.perm_insertionSort strLE k2).trans hp.symm)
    (sortStrings_sorted k2)

theorem get_of_mem : ∀ (h : MIMEHeader), (h.map Prod.fst).Nodup → ∀ e ∈ h, h.get e.1 = e.2
  | [], _, e, he => by simp at he
  | x :: h, hnd, e, he => by
    rw [List.map_cons, List.nodup_cons] at hnd
    rcases List.mem_cons.mp he with rfl | hin
    · simp [MIMEHeader.get]
    · have hne : x.1 ≠ e.1 := fun heq => hnd.1 (heq ▸ List.mem_map_of_mem Prod.fst hin)
      have ih := get_of_mem h hnd.2 e hin
      simp only [MIMEHeader.get, List.find?_cons, hne, decide_False] at ih ⊢
      exact ih

theorem headerLines_of_sorted (h es : MIMEHeader) (hnd : (h.map Prod.fst).Nodup)
    (hp : es.Perm h) (hs : es.Pairwise (fun a c => strLess a.1 c.1 = true)) :
    headerLines h (sortStrings (h.map Prod.fst))
      = es.flatMap (fun e => e.2.flatMap (fun v => e.1 ++ colonSp ++ v ++ crlf)) := by
  have hsorted : (es.map Prod.fst).Sorted strLE := by
    rw [List.Sorted, List.pairwise_map]
    exact hs.imp (fun hab => strLess_asymm _ _ hab)
  rw [sortStrings_unique (es.map Prod.fst) (h.map Prod.fst) (hp.map Prod.fst) hsorted]
  rw [headerLines, List.flatMap_map]
  refine List.flatMap_congr (fun e he => ?_)
  rw [get_of_mem h hnd e (hp.subset he)]

theorem headerLines_perm (h h2 : MIMEHeader) (hnd : (h.map Prod.fst).Nodup)
    (hp : h2.Perm h) :
    headerLines h2 (sortStrings (h2.map Prod.fst))
      = headerLines h (sortStrings (h.map Prod.fst)) := by
  have hnd2 : (h2.map Prod.fst).Nodup := (hp.map Prod.fst).nodup_iff.mpr hnd
  rw [sortStrings_perm _ _ (hp.map Prod.fst), headerLines, headerLines]
  refine List.flatMap_congr (fun k hk => ?_)
  have hk1 : k ∈ h.map Prod.fst :=
    (List.perm_insertionSort strLE (h.map Prod.fst)).subset hk
  obtain ⟨e, he, rfl⟩ := List.mem_map.mp hk1
  rw [get_of_mem h hnd e he, get_of_mem h2 hnd2 e (hp.symm.subset he)]

theorem exists_sorted_header (h : MIMEHeader) (hnd : (h.map Prod.fst).Nodup) :
    ∃ es : MIMEHeader, es.Perm h ∧ es.Pairwise (fun a c => strLess a.1 c.1 = true) := by
  let r : (Bytes × List Bytes) → (Bytes × List Bytes) → Prop := fun a c => strLE a.1 c.1
  haveI : DecidableRel r := fun a c => inferInstanceAs (Decidable (strLE a.1 c.1))
  haveI : IsTotal _ r := ⟨fun a c => strLE_total a.1 c.1⟩
  haveI : IsTrans _ r := ⟨fun a b c => strLE_trans a.1 b.1 c.1⟩
  refine ⟨h.insertionSort r, List.perm_insertionSort r h, ?_⟩
  have hs : (h.insertionSort r).Pairwise r := List.sorted_insertionSort r h
  have hne : (h.insertionSort r).Pairwise (fun a c => a.1 ≠ c.1) := by
    have hn : ((h.insertionSort r).map Prod.fst).Nodup :=
      ((List.perm_insertionSort r h).map Prod.fst).nodup_iff.mpr hnd
    exact List.pairwise_map.mp hn
  refine (hs.and hne).imp (fun {a c} hac => ?_)
  cases hlt : strLess a.1 c.1
  · exact absurd (strLess_connex a.1 c.1 hlt hac.1) hac.2
  · rfl

/-- C10. For every header mapping `h` (pairwise distinct names) passed to
`CreatePart` on an open body, the snapshot enqueued for the part is the
delimiter line followed by the header block: for each entry of the mapping in
strictly ascending byte-wise order of the names, one line `Name: value\r\n`
per value in the order of the value list, then a blank `\r\n`. Such an
ordering `es` of the entries exists, and two mappings with the same entries in
a different order give the same result and the same state. -/
theorem CreatePart_header_order (h : MIMEHeader) (hnd : (h.map Prod.fst).Nodup)
    (w : FormBody) (hw : w.closed = false) :
    (∃ es : MIMEHeader, es.Perm h ∧ es.Pairwise (fun a c => strLess a.1 c.1 = true)) ∧
    (∀ es : MIMEHeader, es.Perm h → es.Pairwise (fun a c => strLess a.1 c.1 = true) →
      (w.CreatePart h).2.readers =
        w.readers ++ (if w.b.isEmpty then [] else [Reader.bytesReader w.b]) ++
          [Reader.bytesReader (delimiter w.boundary (!w.b.isEmpty) ++
            es.flatMap (fun e => e.2.flatMap (fun v => e.1 ++ colonSp ++ v ++ crlf)) ++
            crlf)]) ∧
    (∀ h2 : MIMEHeader, h2.Perm h → w.CreatePart h2 = w.CreatePart h) := by
  refine ⟨exists_sorted_header h hnd, fun es hp hs => ?_, fun h2 hp => ?_⟩
  · rw [CreatePart_open h w hw, headerLines_of_sorted h es hnd hp hs]
  · rw [CreatePart_open h w hw, CreatePart_open h2 w hw, headerLines_perm h h2 hnd hp]

theorem CreatePart_header_order_witness :
    (NewFormBody [66]).CreatePart [([88, 45, 66], [[49]]), ([88, 45, 65], [[50], [51]])]
      = (NewFormBody [66]).CreatePart [([88, 45, 65], [[50], [51]]), ([88, 45, 66], [[49]])] :=
  (CreatePart_header_order [([88, 45, 65], [[50], [51]]), ([88, 45, 66], [[49]])]
    (by decide) (NewFormBody [66]) rfl).2.2
    [([88, 45, 66], [[49]]), ([88, 45, 65], [[50], [51]])] (List.Perm.swap _ _ _)

/-! ## The empty queue -/

/-- C11. Whenever the queue of the body is empty, `Read` with any buffer returns
0 bytes and end-of-stream and leaves the body as it was (pending buffer, queue
and closed flag): no closing boundary line is written and the body is not
closed, so `WriteField` after the `Read` does what it does without it, and on
an open body, in particular on a new one, it succeeds. -/
theorem Read_empty_queue (esc : Bytes → Bytes) (w : FormBody) (p : Nat)
    (hq : w.readers = []) :
    w.Read p = (⟨[], some Err.EOF, []⟩, w) ∧
    (∀ n v, (w.Read p).2.WriteField esc n v = w.WriteField esc n v) ∧
    (w.closed = false → ∀ n v, ((w.Read p).2.WriteField esc n v).1 = none) ∧
    (∀ B n v, (NewFormBody B).Read p = (⟨[], some Err.EOF, []⟩, NewFormBody B) ∧
      (((NewFormBody B).Read p).2.WriteField esc n v).1 = none) := by
  have h1 := Read_of_empty p w hq
  refine ⟨h1, fun n v => by rw [h1], fun hw n v => ?_, fun B n v => ?_⟩
  · rw [h1, WriteField_err, hw]; rfl
  · have h2 := Read_of_empty p (NewFormBody B) rfl
    refine ⟨h2, ?_⟩
    rw [h2, WriteField_err]; rfl

theorem Read_empty_queue_witness :
    (run id [Op.Read 3, Op.Read 0] (NewFormBody [66])).Read 7
      = (⟨[], some Err.EOF, []⟩, run id [Op.Read 3, Op.Read 0] (NewFormBody [66])) :=
  (Read_empty_queue id (run id [Op.Read 3, Op.Read 0] (NewFormBody [66])) 7 rfl).1

/-- C12 (counterexample). A new body on which nothing was written and `Close`
was called: the first `Read` returns the nine bytes `\r\n--B--\r\n` and no
error, not zero bytes and end-of-stream. -/
theorem Close_empty_body_Read :
    ((NewFormBody [66]).Close.Read 512).1 = ⟨[13, 10, 45, 45, 66, 45, 45, 13, 10], none, []⟩ ∧
    ((NewFormBody [66]).Close.Read 512).1.n ≠ [] ∧
    ((NewFormBody [66]).Close.Read 512).1.err ≠ some Err.EOF := by
  decide

theorem run_Reads_new (esc : Bytes → Bytes) (B : Bytes) : ∀ (ps : List Nat),
    run esc (ps.map Op.Read) (NewFormBody B) = NewFormBody B
  | [] => rfl
  | p :: ps => by
    rw [List.map_cons, run_cons]
    have h : (Op.Read p).apply esc (NewFormBody B) = NewFormBody B := by
      simp only [Op.apply]
      rw [Read_of_empty p (NewFormBody B) rfl]
    rw [h, run_Reads_new esc B ps]

/-- C12 (amended). On a body on which no field or part has been written and on
which `Close` has not been called, every `Read`, the first and every later
one, returns zero bytes and end-of-stream and leaves the body new. Once `Close`
has been called on such a body, reading to end-of-stream returns exactly the
closing boundary line `\r\n--B--\r\n`. -/
theorem empty_body_reads (esc : Bytes → Bytes) (B : Bytes) (ps : List Nat) (p : Nat)
    (sz : Nat → Nat) (hsz : ∀ i, 0 < sz i) (fuel : Nat)
    (hfuel : readBound (closingLine B) [Reader.buffer] ≤ fuel) :
    (run esc (ps.map Op.Read) (NewFormBody B)).Read p
      = (⟨[], some Err.EOF, []⟩, NewFormBody B) ∧
    ReadAll fuel sz (run esc (ps.map Op.Read) (NewFormBody B)).Close
      = some (crlf ++ dashes ++ B ++ dashes ++ crlf, none,
          { boundary := B, b := [], readers := [], closed := true }) := by
  rw [run_Reads_new esc B ps]
  refine ⟨Read_of_empty p (NewFormBody B) rfl, ?_⟩
  have h := ReadAll_Close_building (NewFormBody B) (Building_new B) rfl sz hsz fuel
    (by simpa [NewFormBody] using hfuel)
  rw [h]
  simp [FormBody.pending, NewFormBody, queueBytes_nil, closingLine]

theorem empty_body_reads_witness :
    (run id ([3, 0, 5].map Op.Read) (NewFormBody [66])).Read 4
      = (⟨[], some Err.EOF, []⟩, NewFormBody [66]) ∧
    ReadAll 20 (fun i => i + 2) (run id ([3, 0, 5].map Op.Read) (NewFormBody [66])).Close
      = some (crlf ++ dashes ++ [66] ++ dashes ++ crlf, none,
          { boundary := [66], b := [], readers := [], closed := true }) :=
  empty_body_reads id [66] [3, 0, 5] 4 (fun i => i + 2) (fun i => Nat.succ_pos (i + 1)) 20
    (by decide)

/-! ## Opening a part and writing its body -/

/-- C15. On an open body with boundary `B`, pending buffer `P` and queue `Q`,
`CreatePart` with header mapping `H` succeeds, keeps boundary and flag, leaves
the pending buffer empty, and leaves the queue equal to `Q` followed by the
snapshot of `P` and the snapshot `\r\n--B\r\n` ++ header lines ++ `\r\n` when
`P` is non-empty, and to `Q` followed by the snapshot `--B\r\n` ++ header
lines ++ `\r\n` when `P` is empty. -/
theorem CreatePart_postcondition (h : MIMEHeader) (w : FormBody) (hw : w.closed = false) :
    (w.CreatePart h).1 = none ∧ (w.CreatePart h).2.b = [] ∧
    (w.CreatePart h).2.boundary = w.boundary ∧ (w.CreatePart h).2.closed = false ∧
    (w.b ≠ [] → (w.CreatePart h).2.readers = w.readers ++
      [Reader.bytesReader w.b,
       Reader.bytesReader (crlf ++ dashes ++ w.boundary ++ crlf ++
         headerLines h (sortStrings (h.map Prod.fst)) ++ crlf)]) ∧
    (w.b = [] → (w.CreatePart h).2.readers = w.readers ++
      [Reader.bytesReader (dashes ++ w.boundary ++ crlf ++
         headerLines h (sortStrings (h.map Prod.fst)) ++ crlf)]) := by
  rw [CreatePart_open h w hw]
  refine ⟨rfl, rfl, rfl, hw, fun hb => ?_, fun hb => ?_⟩
  · cases hbb : w.b with
    | nil => exact absurd hbb hb
    | cons a t => simp [delimiter, List.append_assoc]
  · simp [hb, delimiter, List.append_assoc]

theorem CreatePart_postcondition_witness :
    (((NewFormBody [66]).Write [120]).CreatePart [([88], [[49]])]).2.readers
      = ((NewFormBody [66]).Write [120]).readers ++
        [Reader.bytesReader ((NewFormBody [66]).Write [120]).b,
         Reader.bytesReader (crlf ++ dashes ++ ((NewFormBody [66]).Write [120]).boundary ++ crlf ++
           headerLines [([88], [[49]])] (sortStrings ([([88], [[49]])].map Prod.fst)) ++ crlf)] :=
  (CreatePart_postcondition [([88], [[49]])] ((NewFormBody [66]).Write [120]) rfl).2.2.2.2.1
    (by decide)

theorem foldl_Write (ds : List Bytes) : ∀ (w : FormBody),
    ds.foldl (fun w d => w.Write d) w = w.Write ds.flatten := by
  induction ds with
  | nil => intro w; simp [FormBody.Write]
  | cons d ds ih =>
    intro w
    rw [List.foldl_cons, ih]
    simp [FormBody.Write, List.append_assoc]

/-- C16. After `CreatePart` on an open body, and before any further `CreatePart`,
`Close` or `Read`, the bytes written to the sink are appended to the pending
buffer in write order (several writes give the same state as one write of the
concatenation); they stand in the stream right after the blank line that ends
the header block of the part; and they are followed by the delimiter of the
next part when another part is opened, or by the closing boundary line when the
body is closed and read to the end. -/
theorem sink_writes_part_body (h : MIMEHeader) (ds : List Bytes) (w : FormBody)
    (hw : Building w) :
    ds.foldl (fun w d => w.Write d) (w.CreatePart h).2 = (w.CreatePart h).2.Write ds.flatten ∧
    ((w.CreatePart h).2.Write ds.flatten).b = ds.flatten ∧
    ((w.CreatePart h).2.Write ds.flatten).readers = (w.CreatePart h).2.readers ∧
    ((w.CreatePart h).2.Write ds.flatten).pending = w.pending ++
      (delimiter w.boundary (!w.b.isEmpty) ++ headerLines h (sortStrings (h.map Prod.fst))
        ++ crlf) ++ ds.flatten ∧
    (∀ h2, (((w.CreatePart h).2.Write ds.flatten).CreatePart h2).2.pending = w.pending ++
      (delimiter w.boundary (!w.b.isEmpty) ++ headerLines h (sortStrings (h.map Prod.fst))
        ++ crlf) ++ ds.flatten ++
      (delimiter w.boundary (!ds.flatten.isEmpty) ++
        headerLines h2 (sortStrings (h2.map Prod.fst)) ++ crlf)) ∧
    (cleanList w.readers = true → ∀ (sz : Nat → Nat), (∀ i, 0 < sz i) → ∀ fuel,
      readBound ((w.CreatePart h).2.Write ds.flatten).Close.b
        ((w.CreatePart h).2.Write ds.flatten).Close.readers ≤ fuel →
      ReadAll fuel sz ((w.CreatePart h).2.Write ds.flatten).Close = some
        (w.pending ++ (delimiter w.boundary (!w.b.isEmpty) ++
            headerLines h (sortStrings (h.map Prod.fst)) ++ crlf) ++ ds.flatten ++
          closingLine w.boundary, none,
          { boundary := w.boundary, b := [], readers := [], closed := true })) := by
  obtain ⟨c1, c2, c3, c4, c5⟩ := CreatePart_building h w hw
  obtain ⟨d1, d2, d3, d4⟩ := Write_building ds.flatten (w.CreatePart h).2 c1
  refine ⟨foldl_Write ds _, by rw [d3, c4]; rfl, rfl, by rw [d4, c5], fun h2 => ?_,
    fun hc sz hsz fuel hfuel => ?_⟩
  · obtain ⟨e1, e2, e3, e4, e5⟩ := CreatePart_building h2 _ d1
    rw [e5, d4, c5, d2, c3, d3, c4]
    rfl
  · have hcl : cleanList ((w.CreatePart h).2.Write ds.flatten).readers = true :=
      CreatePart_clean h w hc
    rw [Close_of_open _ d1.1] at hfuel
    rw [ReadAll_Close_building _ d1 hcl sz hsz fuel hfuel, d4, c5, d2, c3]

theorem sink_writes_part_body_witness :
    [[1, 2], [], [3]].foldl (fun w d => w.Write d) ((NewFormBody [66]).CreatePart []).2
      = ((NewFormBody [66]).CreatePart []).2.Write [[1, 2], [], [3]].flatten :=
  (sink_writes_part_body [] [[1, 2], [], [3]] (NewFormBody [66]) (Building_new [66])).1

/-! ## Errors and the end of the stream -/

theorem mrRead_EOF_iff (p : Nat) : ∀ (rs : List Reader) (b : Bytes),
    (mrRead p b rs).1.err = some Err.EOF ↔ (mrRead p b rs).2.2 = []
  | [], b => by simp [mrRead_nil]
  | r :: rest, b => by
    by_cases h : ∀ inner, r = Reader.multi inner → rest = [] → False
    · rw [mrRead.eq_3 p b r rest h]
      by_cases e1 : (Reader.Read p b r).1.err = some Err.EOF
      · rw [if_pos e1]
        by_cases hn : (Reader.Read p b r).1.n ≠ []
        · rw [if_pos hn]
          cases rest with
          | nil => simp
          | cons r2 rest2 => simp
        · rw [if_neg hn]
          exact mrRead_EOF_iff p rest (Reader.Read p b r).2.1
      · rw [if_neg e1]
        simp [e1]
    · push_neg at h
      obtain ⟨inner, rfl, rfl, _⟩ := h
      rw [mrRead_flatten]
      exact mrRead_EOF_iff p inner b

theorem Reader_Read_leaf_closed (p : Nat) (b : Bytes) (r : Reader) (hr : r.isLeaf = true) :
    (Reader.Read p b r).1.closed = [] := by
  cases r with
  | bytesReader s => cases hs : s.isEmpty <;> simp [Reader.Read, hs]
  | buffer => cases hb : b.isEmpty <;> simp [Reader.Read, hb]
  | stream s =>
    obtain ⟨id, script, ce⟩ := s
    cases script with
    | nil => simp [Reader.Read, Stream.Read]
    | cons c cs =>
      by_cases hl : c.data.length ≤ p <;> simp [Reader.Read, Stream.Read, hl]
  | eofReader => simp [Reader.Read]
  | multi rs => simp [Reader.isLeaf] at hr

/-- C19. If the read of the head source (the entry that `multiReader.Read` reads,
which is never a nested reader standing alone in the queue) returns an error
other than end-of-data, `multiReader.Read` returns the bytes and the error of
that read unchanged, and the queue is the one before the call with the head
source in its state after the read: the source is not removed, no later source
is touched, and when the head is not a nested reader no source is closed. -/
theorem mrRead_other_error (p : Nat) (b : Bytes) (r : Reader) (rest : List Reader) (e : Err)
    (hhead : ∀ inner, r = Reader.multi inner → rest ≠ [])
    (he : (Reader.Read p b r).1.err = some e) (hne : e ≠ Err.EOF) :
    mrRead p b (r :: rest)
      = ((Reader.Read p b r).1, (Reader.Read p b r).2.1, (Reader.Read p b r).2.2 :: rest) ∧
    (mrRead p b (r :: rest)).1.n = (Reader.Read p b r).1.n ∧
    (mrRead p b (r :: rest)).1.err = some e ∧
    (r.isLeaf = true → (mrRead p b (r :: rest)).1.closed = []) := by
  have h1 : mrRead p b (r :: rest)
      = ((Reader.Read p b r).1, (Reader.Read p b r).2.1, (Reader.Read p b r).2.2 :: rest) := by
    rw [mrRead.eq_3 p b r rest (fun inner h1 h2 => hhead inner h1 h2)]
    have hx : ¬ (Reader.Read p b r).1.err = some Err.EOF := by
      rw [he]
      intro h
      exact hne (Option.some.inj h)
    rw [if_neg hx]
  refine ⟨h1, by rw [h1], by rw [h1]; exact he, fun hr => ?_⟩
  rw [h1]
  exact Reader_Read_leaf_closed p b r hr

theorem mrRead_other_error_witness :
    mrRead 4 [] [Reader.stream ⟨1, [⟨[7, 8], some (Err.other 5)⟩, ⟨[9], none⟩], none⟩,
        Reader.bytesReader [1]]
      = ((Reader.Read 4 []
            (Reader.stream ⟨1, [⟨[7, 8], some (Err.other 5)⟩, ⟨[9], none⟩], none⟩)).1,
          (Reader.Read 4 []
            (Reader.stream ⟨1, [⟨[7, 8], some (Err.other 5)⟩, ⟨[9], none⟩], none⟩)).2.1,
          [(Reader.Read 4 []
            (Reader.stream ⟨1, [⟨[7, 8], some (Err.other 5)⟩, ⟨[9], none⟩], none⟩)).2.2,
           Reader.bytesReader [1]]) :=
  (mrRead_other_error 4 []
    (Reader.stream ⟨1, [⟨[7, 8], some (Err.other 5)⟩, ⟨[9], none⟩], none⟩)
    [Reader.bytesReader [1]] (Err.other 5) (fun _ _ => by simp) rfl (by decide)).1

/-- C17 (failing input). A part is opened on a new body with boundary `B`, `x` is
written to its sink, the body is closed, and `JUNK` is written to the same
sink: reading to the end returns `--B\r\n\r\nx\r\n--B--\r\nJUNK`, whereas without
the last write it returns `--B\r\n\r\nx\r\n--B--\r\n`. `Close` enqueues the buffer
itself, not a copy of its bytes as `getPart` does. -/
theorem Write_after_Close_stream :
    (ReadAll 8 (fun _ => 512)
        (run id [Op.CreatePart [], Op.Write (ascii "x"), Op.Close, Op.Write (ascii "JUNK")]
          (NewFormBody (ascii "B")))).map (fun t => (t.1, t.2.1))
      = some (dashes ++ ascii "B" ++ crlf ++ crlf ++ ascii "x" ++
          crlf ++ dashes ++ ascii "B" ++ dashes ++ crlf ++ ascii "JUNK", none) ∧
    (ReadAll 8 (fun _ => 512)
        (run id [Op.CreatePart [], Op.Write (ascii "x"), Op.Close]
          (NewFormBody (ascii "B")))).map (fun t => (t.1, t.2.1))
      = some (dashes ++ ascii "B" ++ crlf ++ crlf ++ ascii "x" ++
          crlf ++ dashes ++ ascii "B" ++ dashes ++ crlf, none) := by
  constructor <;> decide

/-- C14 (counterexample). On a new body the first `Read` reports end-of-stream;
after a `WriteField` the next `Read` returns four bytes and no error. -/
theorem Read_after_EOF_new_body :
    ((NewFormBody [66]).Read 4).1 = ⟨[], some Err.EOF, []⟩ ∧
    ((run id [Op.Read 4, Op.WriteField [97] [120]] (NewFormBody [66])).Read 4).1
      = ⟨[45, 45, 66, 13], none, []⟩ := by
  constructor <;> decide

theorem Read_EOF_readers (p : Nat) (w : FormBody) (h : (w.Read p).1.err = some Err.EOF) :
    (w.Read p).2.readers = [] := by
  cases hrs : w.readers with
  | nil => rw [Read_of_empty p w hrs]; exact hrs
  | cons r rest =>
    have hne : w.readers.isEmpty = false := by rw [hrs]; rfl
    simp only [FormBody.Read, hne, Bool.false_eq_true, if_false] at h ⊢
    exact (mrRead_EOF_iff p _ _).mp h

theorem apply_drained (esc : Bytes → Bytes) (op : Op) (w : FormBody)
    (hc : w.closed = true) (hr : w.readers = []) :
    (op.apply esc w).closed = true ∧ (op.apply esc w).readers = [] := by
  refine ⟨apply_closed esc op w hc, ?_⟩
  cases op with
  | CreatePart h => simp [Op.apply, CreatePart_closed h w hc, hr]
  | Write d => simpa [Op.apply, FormBody.Write] using hr
  | CreateFormField n => simp [Op.apply, CreateFormField_eq, CreatePart_closed _ w hc, hr]
  | CreateFormFile n fn => simp [Op.apply, CreateFormFile_eq, CreatePart_closed _ w hc, hr]
  | WriteField n v => simp [Op.apply, WriteField_closed esc n v w hc, hr]
  | CreateFromReader n fn rd => simp [Op.apply, CreateFromReader_closed esc n fn rd w hc, hr]
  | Close => simp [Op.apply, Close_of_closed w hc, hr]
  | Read p => simp [Op.apply, Read_of_empty p w hr, hr]

theorem run_drained (esc : Bytes → Bytes) : ∀ (ops : List Op) (w : FormBody),
    w.closed = true → w.readers = [] →
    (run esc ops w).closed = true ∧ (run esc ops w).readers = []
  | [], _, hc, hr => ⟨hc, hr⟩
  | op :: ops, w, hc, hr =>
    run_drained esc ops _ (apply_drained esc op w hc hr).1 (apply_drained esc op w hc hr).2

/-- C14 (amended). Once a `Read` has reported end-of-stream and the body is
closed (it was closed before the `Read`, or its queue was not empty), the queue
is empty and stays empty whatever calls follow (`CreatePart`,
`CreateFormField`, `CreateFormFile`, `WriteField`, `CreateFromReader`, `Close`,
writes on the sink, `Read`), and every later `Read` returns 0 bytes and
end-of-stream. A `Read` that reports end-of-stream and leaves the body open
found an empty queue and changed nothing. -/
theorem EOF_permanent (esc : Bytes → Bytes) (w : FormBody) (p : Nat)
    (heof : (w.Read p).1.err = some Err.EOF) (ops : List Op) (q : Nat) :
    ((w.Read p).2.closed = true →
      (run esc ops (w.Read p).2).closed = true ∧ (run esc ops (w.Read p).2).readers = [] ∧
      (run esc ops (w.Read p).2).Read q
        = (⟨[], some Err.EOF, []⟩, run esc ops (w.Read p).2)) ∧
    ((w.Read p).2.closed = false → w.readers = [] ∧ (w.Read p).2 = w) := by
  constructor
  · intro hc
    obtain ⟨h1, h2⟩ := run_drained esc ops _ hc (Read_EOF_readers p w heof)
    exact ⟨h1, h2, Read_of_empty q _ h2⟩
  · intro ho
    have hr : w.readers = [] := by
      by_contra hne
      rw [Read_closed p w hne] at ho
      exact absurd ho (by simp)
    exact ⟨hr, by rw [Read_of_empty p w hr]⟩

theorem EOF_permanent_witness :
    (run id [Op.Write [1, 2], Op.WriteField [98] [121], Op.Close, Op.Read 9]
        ((run id [Op.WriteField [97] [120], Op.Read 512, Op.Read 512]
          (NewFormBody [66])).Read 512).2).Read 7
      = (⟨[], some Err.EOF, []⟩,
          run id [Op.Write [1, 2], Op.WriteField [98] [121], Op.Close, Op.Read 9]
            ((run id [Op.WriteField [97] [120], Op.Read 512, Op.Read 512]
              (NewFormBody [66])).Read 512).2) :=
  ((EOF_permanent id (run id [Op.WriteField [97] [120], Op.Read 512, Op.Read 512]
      (NewFormBody [66])) 512 (by decide)
    [Op.Write [1, 2], Op.WriteField [98] [121], Op.Close, Op.Read 9] 7).1 (by decide)).2.2

/-! ## Closing the sources -/

theorem Stream_Read_clearClose (p : Nat) (s : Stream) :
    s.clearClose.Read p = ((s.Read p).1, (s.Read p).2.clearClose) := by
  obtain ⟨id, script, ce⟩ := s
  cases script with
  | nil => simp [Stream.Read, Stream.clearClose]
  | cons c cs =>
    by_cases hl : c.data.length ≤ p <;> simp [Stream.Read, Stream.clearClose, hl]

theorem Stream_Read_closed (p : Nat) (s : Stream) : (s.Read p).1.closed = [] := by
  obtain ⟨id, script, ce⟩ := s
  cases script with
  | nil => simp [Stream.Read]
  | cons c cs => by_cases hl : c.data.length ≤ p <;> simp [Stream.Read, hl]

theorem closeCalls_clearClose (r : Reader) :
    r.clearClose.closeCalls = r.closeCalls.map Stream.clearClose := by
  cases r <;> simp [Reader.clearClose, Reader.closeCalls]

theorem clearCloseList_eq_nil (rs : List Reader) : clearCloseList rs = [] ↔ rs = [] := by
  cases rs <;> simp [clearCloseList]

theorem clearCloseList_isEmpty (rs : List Reader) :
    (clearCloseList rs).isEmpty = rs.isEmpty := by
  cases rs <;> simp [clearCloseList]

mutual
theorem Reader_Read_clearClose (p : Nat) : ∀ (r : Reader) (b : Bytes),
    Reader.Read p b r.clearClose =
      (⟨(Reader.Read p b r).1.n, (Reader.Read p b r).1.err,
          (Reader.Read p b r).1.closed.map Stream.clearClose⟩,
        (Reader.Read p b r).2.1, (Reader.Read p b r).2.2.clearClose)
  | .bytesReader s, b => by
    cases hs : s.isEmpty <;> simp [Reader.Read, Reader.clearClose, hs]
  | .buffer, b => by
    cases hb : b.isEmpty <;> simp [Reader.Read, Reader.clearClose, hb]
  | .stream s, b => by
    simp only [Reader.clearClose, Reader.Read, Stream_Read_clearClose, Stream_Read_closed,
      List.map_nil]
    have := Stream_Read_closed p s
    cases hx : (s.Read p).1 with
    | mk n err closed =>
      rw [hx] at this
      simp only at this
      subst this
      rfl
  | .eofReader, b => by simp [Reader.Read, Reader.clearClose]
  | .multi rs, b => by
    simp only [Reader.clearClose, Reader.Read, mrRead_clearClose p rs b]
theorem mrRead_clearClose (p : Nat) : ∀ (rs : List Reader) (b : Bytes),
    mrRead p b (clearCloseList rs) =
      (⟨(mrRead p b rs).1.n, (mrRead p b rs).1.err,
          (mrRead p b rs).1.closed.map Stream.clearClose⟩,
        (mrRead p b rs).2.1, clearCloseList (mrRead p b rs).2.2)
  | [], b => by simp [clearCloseList, mrRead_nil]
  | r :: rest, b => by
    by_cases h : ∀ inner, r = Reader.multi inner → rest = [] → False
    · have h2 : ∀ inner, r.clearClose = Reader.multi inner →
          clearCloseList rest = [] → False := by
        intro inner hr hrest
        rw [clearCloseList_eq_nil] at hrest
        cases r with
        | multi rs => exact h rs rfl hrest
        | bytesReader s => simp [Reader.clearClose] at hr
        | buffer => simp [Reader.clearClose] at hr
        | stream s => simp [Reader.clearClose] at hr
        | eofReader => simp [Reader.clearClose] at hr
      have hr := Reader_Read_clearClose p r b
      have hcl : clearCloseList (r :: rest) = r.clearClose :: clearCloseList rest := by
        rw [clearCloseList]
      rw [hcl, mrRead.eq_3 p b _ _ h2, mrRead.eq_3 p b r rest h, hr]
      simp only
      by_cases e1 : (Reader.Read p b r).1.err = some Err.EOF
      · rw [if_pos e1, if_pos e1]
        by_cases hn : (Reader.Read p b r).1.n ≠ []
        · rw [if_pos hn, if_pos hn]
          cases rest with
          | nil => simp [closeCalls_clearClose, clearCloseList]
          | cons r2 rest2 => simp [closeCalls_clearClose, clearCloseList]
        · rw [if_neg hn, if_neg hn]
          have ih := mrRead_clearClose p rest (Reader.Read p b r).2.1
          simp only [ih, closeCalls_clearClose, List.map_append]
      · rw [if_neg e1, if_neg e1]
        simp [clearCloseList]
    · push_neg at h
      obtain ⟨inner, rfl, rfl, _⟩ := h
      have hcl : clearCloseList [Reader.multi inner] = [Reader.multi (clearCloseList inner)] := by
        simp [clearCloseList, Reader.clearClose]
      rw [hcl, mrRead_flatten, mrRead_flatten]
      exact mrRead_clearClose p inner b
end

/-- C13 (counterexample). The queue holds one closable source, which reports
end-of-data with no bytes and whose `Close` fails with an error: `Read` invokes
`Close` on it and returns 0 bytes and `io.EOF`, not the close error. -/
theorem close_error_not_returned :
    (mrRead 4 [] [Reader.stream ⟨0, [], some (Err.other 7)⟩]).1
      = ⟨[], some Err.EOF, [⟨0, [], some (Err.other 7)⟩]⟩ ∧
    (mrRead 4 [] [Reader.stream ⟨0, [], some (Err.other 7)⟩]).1.err ≠ some (Err.other 7) := by
  constructor <;> decide

/-- C13 (amended). For every `Read` call on the segment reader, the result of a
`Close` that it invokes is discarded: the bytes returned, the error returned,
the shared buffer and the queue after the call are those of the same call on
the queue in which every `Close` succeeds. A close error is never returned,
whether the call has bytes to return or not. -/
theorem close_result_discarded (p : Nat) (b : Bytes) (rs : List Reader) :
    (mrRead p b rs).1.n = (mrRead p b (clearCloseList rs)).1.n ∧
    (mrRead p b rs).1.err = (mrRead p b (clearCloseList rs)).1.err ∧
    (mrRead p b rs).2.1 = (mrRead p b (clearCloseList rs)).2.1 ∧
    clearCloseList (mrRead p b rs).2.2 = (mrRead p b (clearCloseList rs)).2.2 ∧
    (mrRead p b rs).1.closed.map Stream.clearClose
      = (mrRead p b (clearCloseList rs)).1.closed := by
  rw [mrRead_clearClose p rs b]
  exact ⟨rfl, rfl, rfl, rfl, rfl⟩

theorem Stream_Read_id (p : Nat) (s : Stream) : (s.Read p).2.id = s.id := by
  obtain ⟨id, script, ce⟩ := s
  cases script with
  | nil => simp [Stream.Read]
  | cons c cs => by_cases hl : c.data.length ≤ p <;> simp [Stream.Read, hl]

theorem queueStreams_cons (r : Reader) (rs : List Reader) :
    queueStreams (r :: rs) = r.streams ++ queueStreams rs := by rw [queueStreams]

mutual
theorem Reader_Read_streams (p : Nat) : ∀ (r : Reader) (b : Bytes),
    r.streams.map Stream.id = (Reader.Read p b r).1.closed.map Stream.id ++
        (Reader.Read p b r).2.2.streams.map Stream.id ∧
    ((Reader.Read p b r).1.err = some Err.EOF →
      (Reader.Read p b r).2.2.streams = (Reader.Read p b r).2.2.closeCalls)
  | .bytesReader s, b => by
    cases hs : s.isEmpty <;> simp [Reader.Read, Reader.streams, Reader.closeCalls, hs]
  | .buffer, b => by
    cases hb : b.isEmpty <;> simp [Reader.Read, Reader.streams, Reader.closeCalls, hb]
  | .stream s, b => by
    simp [Reader.Read, Reader.streams, Reader.closeCalls, Stream_Read_closed, Stream_Read_id]
  | .eofReader, b => by simp [Reader.Read, Reader.streams, Reader.closeCalls]
  | .multi rs, b => by
    have ih := mrRead_streams p rs b
    refine ⟨by simpa [Reader.Read, Reader.streams] using ih, fun he => ?_⟩
    have hnil : (mrRead p b rs).2.2 = [] := (mrRead_EOF_iff p rs b).mp (by simpa [Reader.Read] using he)
    simp [Reader.Read, Reader.streams, Reader.closeCalls, hnil, queueStreams]
theorem mrRead_streams (p : Nat) : ∀ (rs : List Reader) (b : Bytes),
    (queueStreams rs).map Stream.id = (mrRead p b rs).1.closed.map Stream.id ++
      (queueStreams (mrRead p b rs).2.2).map Stream.id
  | [], b => by simp [mrRead_nil, queueStreams]
  | r :: rest, b => by
    by_cases h : ∀ inner, r = Reader.multi inner → rest = [] → False
    · obtain ⟨hr1, hr2⟩ := Reader_Read_streams p r b
      rw [mrRead.eq_3 p b r rest h, queueStreams_cons, List.map_append, hr1]
      by_cases e1 : (Reader.Read p b r).1.err = some Err.EOF
      · rw [if_pos e1, hr2 e1]
        by_cases hn : (Reader.Read p b r).1.n ≠ []
        · rw [if_pos hn]
          simp [List.map_append, List.append_assoc]
        · rw [if_neg hn]
          have ih := mrRead_streams p rest (Reader.Read p b r).2.1
          simp only [List.map_append, List.append_assoc, ih]
      · rw [if_neg e1]
        simp [queueStreams_cons, List.map_append, List.append_assoc]
    · push_neg at h
      obtain ⟨inner, rfl, rfl, _⟩ := h
      rw [mrRead_flatten, queueStreams_cons]
      simpa [Reader.streams, queueStreams] using mrRead_streams p inner b
end

theorem mrReadSeq_streams : ∀ (ps : List Nat) (b : Bytes) (rs : List Reader),
    (queueStreams rs).map Stream.id =
      ((mrReadSeq ps b rs).1.flatMap ReadResult.closed).map Stream.id ++
        (queueStreams (mrReadSeq ps b rs).2.2).map Stream.id
  | [], b, rs => by simp [mrReadSeq]
  | p :: ps, b, rs => by
    have h1 := mrRead_streams p rs b
    have h2 := mrReadSeq_streams ps (mrRead p b rs).2.1 (mrRead p b rs).2.2
    rw [mrReadSeq]
    simp only [List.flatMap_cons, List.map_append, List.append_assoc]
    rw [← h2, ← h1]

/-- C18. Over any sequence of `Read` calls on the segment reader, with slices of
any lengths, the closable sources of the queue are, in queue order, those on
which `Close` has been invoked followed by those still in the queue: a source
is closed when it is removed and only then. So, the sources being distinct, no
source is closed twice and a closed source is not in the queue any more. A
head source whose read does not report end-of-data (it returns no error or
another error) is not closed and stays at the head; a head source whose read
reports end-of-data is closed in that call, first of all, and removed. -/
theorem sources_closed_once (ps : List Nat) (b : Bytes) (rs : List Reader) (p : Nat)
    (s : Stream) (rest : List Reader) :
    (queueStreams rs).map Stream.id =
      ((mrReadSeq ps b rs).1.flatMap ReadResult.closed).map Stream.id ++
        (queueStreams (mrReadSeq ps b rs).2.2).map Stream.id ∧
    (((queueStreams rs).map Stream.id).Nodup →
      (((mrReadSeq ps b rs).1.flatMap ReadResult.closed).map Stream.id).Nodup ∧
      ∀ i ∈ ((mrReadSeq ps b rs).1.flatMap ReadResult.closed).map Stream.id,
        i ∉ (queueStreams (mrReadSeq ps b rs).2.2).map Stream.id) ∧
    ((s.Read p).1.err ≠ some Err.EOF →
      mrRead p b (Reader.stream s :: rest)
        = (⟨(s.Read p).1.n, (s.Read p).1.err, []⟩, b, Reader.stream (s.Read p).2 :: rest)) ∧
    ((s.Read p).1.err = some Err.EOF →
      ∃ tail, (mrRead p b (Reader.stream s :: rest)).1.closed = (s.Read p).2 :: tail ∧
        (queueStreams rest).map Stream.id
          = tail.map Stream.id ++
            (queueStreams (mrRead p b (Reader.stream s :: rest)).2.2).map Stream.id) := by
  have hside : ∀ inner, Reader.stream s = Reader.multi inner → rest = [] → False := by
    intro inner h
    cases h
  have hseq := mrReadSeq_streams ps b rs
  refine ⟨hseq, fun hnd => ?_, fun hne => ?_, fun he => ?_⟩
  · rw [hseq] at hnd
    exact ⟨(List.nodup_append.mp hnd).1, fun i hi hq => (List.nodup_append.mp hnd).2.2 hi hq⟩
  · rw [mrRead.eq_3 p b _ rest hside]
    have hx : ¬ (Reader.Read p b (Reader.stream s)).1.err = some Err.EOF := by
      simpa [Reader.Read] using hne
    rw [if_neg hx]
    have hc := Stream_Read_closed p s
    cases hr : (s.Read p).1 with
    | mk n err closed =>
      rw [hr] at hc
      simp only at hc
      subst hc
      simp [Reader.Read, hr]
  · have hx : (Reader.Read p b (Reader.stream s)).1.err = some Err.EOF := by
      simpa [Reader.Read] using he
    rw [mrRead.eq_3 p b _ rest hside, if_pos hx]
    by_cases hn : (Reader.Read p b (Reader.stream s)).1.n ≠ []
    · rw [if_pos hn]
      exact ⟨[], by simp [Reader.Read, Reader.closeCalls, Stream_Read_closed], by simp⟩
    · rw [if_neg hn]
      refine ⟨(mrRead p (Reader.Read p b (Reader.stream s)).2.1 rest).1.closed,
        by simp [Reader.Read, Reader.closeCalls, Stream_Read_closed], ?_⟩
      exact mrRead_streams p rest _

theorem sources_closed_once_witness :
    (((mrReadSeq [2, 2, 2] []
        [Reader.stream ⟨1, [⟨[7], some Err.EOF⟩], none⟩, Reader.bytesReader [1],
         Reader.multi [Reader.stream ⟨2, [], some (Err.other 3)⟩],
         Reader.stream ⟨3, [⟨[8], some (Err.other 1)⟩], none⟩]).1.flatMap
        ReadResult.closed).map Stream.id).Nodup ∧
    ∀ i ∈ ((mrReadSeq [2, 2, 2] []
        [Reader.stream ⟨1, [⟨[7], some Err.EOF⟩], none⟩, Reader.bytesReader [1],
         Reader.multi [Reader.stream ⟨2, [], some (Err.other 3)⟩],
         Reader.stream ⟨3, [⟨[8], some (Err.other 1)⟩], none⟩]).1.flatMap
        ReadResult.closed).map Stream.id,
      i ∉ (queueStreams (mrReadSeq [2, 2, 2] []
        [Reader.stream ⟨1, [⟨[7], some Err.EOF⟩], none⟩, Reader.bytesReader [1],
         Reader.multi [Reader.stream ⟨2, [], some (Err.other 3)⟩],
         Reader.stream ⟨3, [⟨[8], some (Err.other 1)⟩], none⟩]).2.2).map Stream.id :=
  (sources_closed_once [2, 2, 2] []
    [Reader.stream ⟨1, [⟨[7], some Err.EOF⟩], none⟩, Reader.bytesReader [1],
     Reader.multi [Reader.stream ⟨2, [], some (Err.other 3)⟩],
     Reader.stream ⟨3, [⟨[8], some (Err.other 1)⟩], none⟩]
    0 ⟨0, [], none⟩ []).2.1 (by decide)

/-! ## Nested readers -/

theorem flatQueue_cons (r : Reader) (rs : List Reader) :
    flatQueue (r :: rs) = r.leaves ++ flatQueue rs := by rw [flatQueue]

theorem leafyList_cons (r : Reader) (rs : List Reader) :
    leafyList (r :: rs) = (r.leafy && leafyList rs) := by rw [leafyList]

theorem leaves_of_leaf (r : Reader) (hr : r.isLeaf = true) : r.leaves = [r] := by
  cases r <;> simp_all [Reader.isLeaf, Reader.leaves]

theorem leafy_of_leaf (r : Reader) (hr : r.isLeaf = true) : r.leafy = true := by
  cases r <;> simp_all [Reader.isLeaf, Reader.leafy]

theorem Reader_Read_isLeaf (p : Nat) (b : Bytes) (r : Reader) (hr : r.isLeaf = true) :
    (Reader.Read p b r).2.2.isLeaf = true := by
  cases r with
  | bytesReader s => cases hs : s.isEmpty <;> simp [Reader.Read, Reader.isLeaf, hs]
  | buffer => cases hb : b.isEmpty <;> simp [Reader.Read, Reader.isLeaf, hb]
  | stream s => simp [Reader.Read, Reader.isLeaf]
  | eofReader => simp [Reader.Read, Reader.isLeaf]
  | multi rs => simp [Reader.isLeaf] at hr

theorem not_multi_of_leaf (r : Reader) (hr : r.isLeaf = true) (rest : List Reader) :
    ∀ inner, r = Reader.multi inner → rest = [] → False := by
  intro inner h
  subst h
  simp [Reader.isLeaf] at hr

theorem mrRead_append_leaves (p : Nat) : ∀ (xs : List Reader), xs.all Reader.isLeaf = true →
    ∀ (ys : List Reader) (b : Bytes),
    mrRead p b (xs ++ ys) =
      if (mrRead p b xs).1.err = some Err.EOF then
        if (mrRead p b xs).1.n ≠ [] then
          (⟨(mrRead p b xs).1.n, if ys.isEmpty then some Err.EOF else none,
              (mrRead p b xs).1.closed⟩, (mrRead p b xs).2.1, ys)
        else
          (⟨(mrRead p (mrRead p b xs).2.1 ys).1.n, (mrRead p (mrRead p b xs).2.1 ys).1.err,
              (mrRead p b xs).1.closed ++ (mrRead p (mrRead p b xs).2.1 ys).1.closed⟩,
            (mrRead p (mrRead p b xs).2.1 ys).2.1, (mrRead p (mrRead p b xs).2.1 ys).2.2)
      else ((mrRead p b xs).1, (mrRead p b xs).2.1, (mrRead p b xs).2.2 ++ ys)
  | [], _, ys, b => by simp [mrRead_nil]
  | x :: xs, hx, ys, b => by
    rw [List.all_cons, Bool.and_eq_true] at hx
    have ih := mrRead_append_leaves p xs hx.2 ys (Reader.Read p b x).2.1
    rw [List.cons_append, mrRead.eq_3 p b x (xs ++ ys) (not_multi_of_leaf x hx.1 _),
      mrRead.eq_3 p b x xs (not_multi_of_leaf x hx.1 _)]
    by_cases e1 : (Reader.Read p b x).1.err = some Err.EOF
    · simp only [if_pos e1]
      by_cases hn : (Reader.Read p b x).1.n ≠ []
      · simp only [if_pos hn]
        cases xs with
        | nil => simp [hn]
        | cons x2 xs2 => simp
      · simp only [if_neg hn]
        rw [ih]
        by_cases e2 : (mrRead p (Reader.Read p b x).2.1 xs).1.err = some Err.EOF
        · simp only [if_pos e2]
          by_cases hn2 : (mrRead p (Reader.Read p b x).2.1 xs).1.n ≠ []
          · simp only [if_pos hn2]
          · simp only [if_neg hn2, List.append_assoc]
        · simp only [if_neg e2]
    · simp only [if_neg e1, List.cons_append]

mutual
theorem leaves_all_isLeaf : ∀ (r : Reader), r.leaves.all Reader.isLeaf = true
  | .bytesReader s => by simp [Reader.leaves, Reader.isLeaf]
  | .buffer => by simp [Reader.leaves, Reader.isLeaf]
  | .stream s => by simp [Reader.leaves, Reader.isLeaf]
  | .eofReader => by simp [Reader.leaves, Reader.isLeaf]
  | .multi rs => by
    rw [Reader.leaves]
    exact flatQueue_all_isLeaf rs
theorem flatQueue_all_isLeaf : ∀ (rs : List Reader), (flatQueue rs).all Reader.isLeaf = true
  | [] => by simp [flatQueue]
  | r :: rs => by
    rw [flatQueue_cons, List.all_append, leaves_all_isLeaf r, flatQueue_all_isLeaf rs]
    rfl
end

theorem leaves_ne_nil (r : Reader) (hr : r.leafy = true) : r.leaves ≠ [] := by
  cases r with
  | multi rs =>
    rw [Reader.leafy, Bool.and_eq_true] at hr
    rw [Reader.leaves]
    intro h
    rw [h] at hr
    simp at hr
  | bytesReader s => simp [Reader.leaves]
  | buffer => simp [Reader.leaves]
  | stream s => simp [Reader.leaves]
  | eofReader => simp [Reader.leaves]

theorem flatQueue_isEmpty (rs : List Reader) (h : leafyList rs = true) :
    (flatQueue rs).isEmpty = rs.isEmpty := by
  cases rs with
  | nil => simp [flatQueue]
  | cons r rest =>
    rw [leafyList_cons, Bool.and_eq_true] at h
    have := leaves_ne_nil r h.1
    rw [flatQueue_cons]
    cases hl : r.leaves with
    | nil => exact absurd hl this
    | cons a t => rfl

theorem mrRead_flat_leaf (p : Nat) (r : Reader) (hr : r.isLeaf = true) (rest : List Reader)
    (b : Bytes) (hl : leafyList rest = true)
    (ih : ∀ b2 : Bytes, leafyList rest = true →
      (mrRead p b2 rest).1 = (mrRead p b2 (flatQueue rest)).1 ∧
      (mrRead p b2 rest).2.1 = (mrRead p b2 (flatQueue rest)).2.1 ∧
      flatQueue (mrRead p b2 rest).2.2 = (mrRead p b2 (flatQueue rest)).2.2 ∧
      leafyList (mrRead p b2 rest).2.2 = true) :
    (mrRead p b (r :: rest)).1 = (mrRead p b (flatQueue (r :: rest))).1 ∧
    (mrRead p b (r :: rest)).2.1 = (mrRead p b (flatQueue (r :: rest))).2.1 ∧
    flatQueue (mrRead p b (r :: rest)).2.2 = (mrRead p b (flatQueue (r :: rest))).2.2 ∧
    leafyList (mrRead p b (r :: rest)).2.2 = true := by
  rw [flatQueue_cons, leaves_of_leaf r hr, List.singleton_append,
    mrRead.eq_3 p b r rest (not_multi_of_leaf r hr _),
    mrRead.eq_3 p b r (flatQueue rest) (not_multi_of_leaf r hr _)]
  by_cases e1 : (Reader.Read p b r).1.err = some Err.EOF
  · simp only [if_pos e1]
    by_cases hn : (Reader.Read p b r).1.n ≠ []
    · simp only [if_pos hn, flatQueue_isEmpty rest hl]
      exact ⟨trivial, trivial, trivial, hl⟩
    · simp only [if_neg hn]
      obtain ⟨j1, j2, j3, j4⟩ := ih (Reader.Read p b r).2.1 hl
      refine ⟨?_, j2, j3, j4⟩
      rw [← j1]
  · simp only [if_neg e1]
    have hleaf := Reader_Read_isLeaf p b r hr
    refine ⟨trivial, trivial, ?_, ?_⟩
    · rw [flatQueue_cons, leaves_of_leaf _ hleaf, List.singleton_append]
    · rw [leafyList_cons, leafy_of_leaf _ hleaf, hl]
      rfl

theorem mrRead_flat (p : Nat) : ∀ (rs : List Reader) (b : Bytes), leafyList rs = true →
    (mrRead p b rs).1 = (mrRead p b (flatQueue rs)).1 ∧
    (mrRead p b rs).2.1 = (mrRead p b (flatQueue rs)).2.1 ∧
    flatQueue (mrRead p b rs).2.2 = (mrRead p b (flatQueue rs)).2.2 ∧
    leafyList (mrRead p b rs).2.2 = true
  | [], b, _ => by simp [flatQueue, mrRead_nil, leafyList]
  | r :: rest, b, hl => by
    rw [leafyList_cons, Bool.and_eq_true] at hl
    cases r with
    | multi inner =>
      have hin : leafyList inner = true := by
        have := hl.1
        rw [Reader.leafy, Bool.and_eq_true] at this
        exact this.2
      obtain ⟨i1, i2, i3, i4⟩ := mrRead_flat p inner b hin
      have happ := mrRead_append_leaves p (flatQueue inner) (flatQueue_all_isLeaf inner)
        (flatQueue rest) b
      rw [flatQueue_cons, Reader.leaves, happ]
      cases rest with
      | nil =>
        rw [mrRead_flatten]
        simp only [flatQueue, List.append_nil, List.isEmpty_nil, if_true, mrRead_nil]
        have hiff := mrRead_EOF_iff p (flatQueue inner) b
        by_cases e1 : (mrRead p b (flatQueue inner)).1.err = some Err.EOF
        · simp only [if_pos e1]
          by_cases hn : (mrRead p b (flatQueue inner)).1.n ≠ []
          · simp only [if_pos hn]
            refine ⟨?_, i2, ?_, i4⟩
            · rw [i1]
              cases hx : (mrRead p b (flatQueue inner)).1 with
              | mk n err closed =>
                rw [hx] at e1
                simp only at e1
                rw [e1]
            · rw [i3]; exact hiff.mp e1
          · simp only [if_neg hn, List.append_nil]
            refine ⟨?_, i2, ?_, i4⟩
            · rw [i1]
              cases hx : (mrRead p b (flatQueue inner)).1 with
              | mk n err closed =>
                rw [hx] at e1 hn
                simp only [ne_eq, not_not] at e1 hn
                rw [e1, hn]
            · rw [i3]; exact hiff.mp e1
        · simp only [if_neg e1]
          exact ⟨i1, i2, i3, i4⟩
      | cons r2 rest2 =>
        have hside : ∀ inn, Reader.multi inner = Reader.multi inn → r2 :: rest2 = [] → False := by
          intro inn _ h
          cases h
        have hne : (flatQueue (r2 :: rest2)).isEmpty = false := by
          rw [flatQueue_isEmpty _ hl.2]; rfl
        rw [mrRead.eq_3 p b _ _ hside]
        simp only [Reader.Read, Reader.closeCalls, List.append_nil, List.isEmpty_cons]
        rw [← i1, ← i2]
        by_cases e1 : (mrRead p b inner).1.err = some Err.EOF
        · simp only [if_pos e1]
          by_cases hn : (mrRead p b inner).1.n ≠ []
          · simp only [if_pos hn, hne]
            exact ⟨trivial, trivial, trivial, hl.2⟩
          · simp only [if_neg hn]
            obtain ⟨j1, j2, j3, j4⟩ := mrRead_flat p (r2 :: rest2) (mrRead p b inner).2.1 hl.2
            refine ⟨?_, j2, j3, j4⟩
            rw [← j1]
        · simp only [if_neg e1]
          refine ⟨trivial, trivial, ?_, ?_⟩
          · rw [flatQueue_cons, Reader.leaves, i3]
          · rw [leafyList_cons, Reader.leafy, i4, hl.2]
            have hq : (mrRead p b inner).2.2 ≠ [] := by
              intro h
              exact e1 ((mrRead_EOF_iff p inner b).mpr h)
            have : (flatQueue (mrRead p b inner).2.2).isEmpty = false := by
              rw [flatQueue_isEmpty _ i4]
              cases hh : (mrRead p b inner).2.2 with
              | nil => exact absurd hh hq
              | cons a t => rfl
            simp [this]
    | bytesReader s =>
      exact mrRead_flat_leaf p (Reader.bytesReader s) rfl rest b hl.2
        (fun b2 h2 => mrRead_flat p rest b2 h2)
    | buffer => exact mrRead_flat_leaf p Reader.buffer rfl rest b hl.2 (fun b2 h2 => mrRead_flat p rest b2 h2)
    | stream s => exact mrRead_flat_leaf p (Reader.stream s) rfl rest b hl.2 (fun b2 h2 => mrRead_flat p rest b2 h2)
    | eofReader => exact mrRead_flat_leaf p Reader.eofReader rfl rest b hl.2 (fun b2 h2 => mrRead_flat p rest b2 h2)

theorem mrReadSeq_flat : ∀ (ps : List Nat) (b : Bytes) (rs : List Reader),
    leafyList rs = true →
    (mrReadSeq ps b rs).1 = (mrReadSeq ps b (flatQueue rs)).1 ∧
    (mrReadSeq ps b rs).2.1 = (mrReadSeq ps b (flatQueue rs)).2.1 ∧
    flatQueue (mrReadSeq ps b rs).2.2 = (mrReadSeq ps b (flatQueue rs)).2.2
  | [], b, rs, _ => by simp [mrReadSeq]
  | p :: ps, b, rs, hl => by
    obtain ⟨i1, i2, i3, i4⟩ := mrRead_flat p rs b hl
    obtain ⟨j1, j2, j3⟩ := mrReadSeq_flat ps (mrRead p b rs).2.1 (mrRead p b rs).2.2 i4
    rw [mrReadSeq, mrReadSeq]
    simp only
    rw [← i1, ← i2, ← i3]
    exact ⟨by rw [j1], j2, j3⟩

theorem mrReadAll_flat : ∀ (fuel : Nat) (sz : Nat → Nat) (b : Bytes) (rs : List Reader),
    leafyList rs = true →
    (mrReadAll fuel sz b rs).map (fun t => (t.1, t.2.1, t.2.2.1))
      = (mrReadAll fuel sz b (flatQueue rs)).map (fun t => (t.1, t.2.1, t.2.2.1))
  | 0, _, _, _, _ => by simp [mrReadAll]
  | fuel + 1, sz, b, rs, hl => by
    obtain ⟨i1, i2, i3, i4⟩ := mrRead_flat (sz 0) rs b hl
    have ih := mrReadAll_flat fuel (fun i => sz (i + 1)) (mrRead (sz 0) b rs).2.1
      (mrRead (sz 0) b rs).2.2 i4
    rw [mrReadAll, mrReadAll]
    rw [← i1, ← i2, ← i3]
    cases he : (mrRead (sz 0) b rs).1.err with
    | none =>
      simp only [Option.map_map]
      have h2 := congrArg (Option.map (fun t : Bytes × Option Err × Bytes =>
        ((mrRead (sz 0) b rs).1.n ++ t.1, t.2))) ih
      simpa [Option.map_map, Function.comp_def] using h2
    | some e => cases e <;> simp [i2]

theorem queueBytes_append_gen : ∀ (xs ys : List Reader) (b : Bytes),
    queueBytes b (xs ++ ys) =
      ((queueBytes b xs).1 ++ (queueBytes (queueBytes b xs).2 ys).1,
        (queueBytes (queueBytes b xs).2 ys).2)
  | [], ys, b => by simp [queueBytes_nil]
  | x :: xs, ys, b => by
    simp only [List.cons_append, queueBytes_cons, queueBytes_append_gen xs ys, List.append_assoc]

theorem weightList_append : ∀ (xs ys : List Reader),
    weightList (xs ++ ys) = weightList xs + weightList ys
  | [], ys => by simp [weightList]
  | x :: xs, ys => by
    simp only [List.cons_append, weightList_cons, weightList_append xs ys, Nat.add_assoc]

mutual
theorem leaves_summary : ∀ (r : Reader) (b : Bytes),
    queueBytes b r.leaves = r.bytes b ∧ cleanList r.leaves = r.clean ∧
    weightList r.leaves ≤ r.weight
  | .bytesReader s, b => by
    simp [Reader.leaves, queueBytes_cons, queueBytes_nil, cleanList, weightList]
  | .buffer, b => by
    simp [Reader.leaves, queueBytes_cons, queueBytes_nil, cleanList, weightList, Reader.bytes]
  | .stream s, b => by
    simp [Reader.leaves, queueBytes_cons, queueBytes_nil, cleanList, weightList, Reader.bytes]
  | .eofReader, b => by
    simp [Reader.leaves, queueBytes_cons, queueBytes_nil, cleanList, weightList, Reader.bytes]
  | .multi rs, b => by
    obtain ⟨h1, h2, h3⟩ := flatQueue_summary rs b
    rw [Reader.leaves, Reader.bytes, Reader.clean, Reader.weight]
    exact ⟨h1, h2, by omega⟩
theorem flatQueue_summary : ∀ (rs : List Reader) (b : Bytes),
    queueBytes b (flatQueue rs) = queueBytes b rs ∧ cleanList (flatQueue rs) = cleanList rs ∧
    weightList (flatQueue rs) ≤ weightList rs
  | [], b => by simp [flatQueue]
  | r :: rs, b => by
    obtain ⟨h1, h2, h3⟩ := leaves_summary r b
    obtain ⟨i1, i2, i3⟩ := flatQueue_summary rs (r.bytes b).2
    rw [flatQueue_cons, queueBytes_append_gen, cleanList_append, weightList_append,
      queueBytes_cons, cleanList_cons, weightList_cons, h1, h2, i1, i2]
    exact ⟨rfl, rfl, by omega⟩
end

/-- C20 (counterexample). The queue holds a source that returns one byte
together with end-of-data, followed by a nested reader with no source. `Read`
on it returns the byte with no error, whereas `Read` on the flat queue of its
leaf sources returns the byte with end-of-data. -/
theorem empty_nested_reader_Read :
    flatQueue [Reader.stream ⟨0, [⟨[1], some Err.EOF⟩], none⟩, Reader.multi []]
      = [Reader.stream ⟨0, [⟨[1], some Err.EOF⟩], none⟩] ∧
    (mrRead 4 [] [Reader.stream ⟨0, [⟨[1], some Err.EOF⟩], none⟩, Reader.multi []]).1
      = ⟨[1], none, [⟨0, [], none⟩]⟩ ∧
    (mrRead 4 []
        (flatQueue [Reader.stream ⟨0, [⟨[1], some Err.EOF⟩], none⟩, Reader.multi []])).1
      = ⟨[1], some Err.EOF, [⟨0, [], none⟩]⟩ := by
  refine ⟨rfl, ?_, ?_⟩ <;> decide

/-- C20 (amended). For every finitely nested segment reader in which no nested
reader, at any depth, is without a leaf source, and for slices of any lengths,
the sequence of `Read` results, and so the result of reading to end-of-stream,
is the same as for the flat queue of its leaf sources taken from left to
right. For every nested reader whose sources fail with nothing but
end-of-data, also with nested readers that have no leaf source, reading to
end-of-stream returns the same bytes as for the flat queue. A reader whose
single entry is a nested reader behaves exactly like that nested reader. -/
theorem nested_reads_as_flat (rs : List Reader) (b : Bytes) :
    (leafyList rs = true →
      (∀ ps, (mrReadSeq ps b rs).1 = (mrReadSeq ps b (flatQueue rs)).1) ∧
      (∀ fuel sz, (mrReadAll fuel sz b rs).map (fun t => (t.1, t.2.1, t.2.2.1))
        = (mrReadAll fuel sz b (flatQueue rs)).map (fun t => (t.1, t.2.1, t.2.2.1)))) ∧
    (cleanList rs = true → ∀ (sz : Nat → Nat), (∀ i, 0 < sz i) → ∀ fuel, readBound b rs ≤ fuel →
      mrReadAll fuel sz b rs = some ((queueBytes b rs).1, none, (queueBytes b rs).2, []) ∧
      mrReadAll fuel sz b (flatQueue rs)
        = some ((queueBytes b rs).1, none, (queueBytes b rs).2, [])) ∧
    (∀ p inner, mrRead p b [Reader.multi inner] = mrRead p b inner) := by
  refine ⟨fun hl => ⟨fun ps => (mrReadSeq_flat ps b rs hl).1,
    fun fuel sz => mrReadAll_flat fuel sz b rs hl⟩, fun hc sz hsz fuel hfuel => ?_,
    fun p inner => mrRead_flatten p b inner⟩
  obtain ⟨h1, h2, h3⟩ := flatQueue_summary rs b
  unfold readBound at hfuel
  refine ⟨mrReadAll_drain fuel sz b rs hsz hc (by omega), ?_⟩
  have := mrReadAll_drain fuel sz b (flatQueue rs) hsz (by rw [h2]; exact hc)
    (by rw [h1]; omega)
  rw [this, h1]

theorem nested_reads_as_flat_witness :
    (mrReadSeq [2, 1, 5, 5] [9]
        [Reader.multi [Reader.bytesReader [1, 2, 3], Reader.multi [Reader.buffer]],
         Reader.stream ⟨0, [⟨[4], some Err.EOF⟩], none⟩]).1
      = (mrReadSeq [2, 1, 5, 5] [9]
        (flatQueue [Reader.multi [Reader.bytesReader [1, 2, 3], Reader.multi [Reader.buffer]],
         Reader.stream ⟨0, [⟨[4], some Err.EOF⟩], none⟩])).1 :=
  ((nested_reads_as_flat
    [Reader.multi [Reader.bytesReader [1, 2, 3], Reader.multi [Reader.buffer]],
     Reader.stream ⟨0, [⟨[4], some Err.EOF⟩], none⟩] [9]).1 (by decide)).1 [2, 1, 5, 5]

/-! ## The closing line is written once -/

theorem Stream_Read_conserve (p : Nat) (s : Stream) :
    ((s.Read p).1.err = some Err.EOF → (s.Read p).1.n = scriptContent s.script) ∧
    ((s.Read p).1.err ≠ some Err.EOF →
      (s.Read p).1.n ++ scriptContent (s.Read p).2.script = scriptContent s.script) := by
  obtain ⟨id, script, ce⟩ := s
  cases script with
  | nil => simp [Stream.Read, scriptContent]
  | cons c cs =>
    obtain ⟨data, err⟩ := c
    by_cases hlen : data.length ≤ p
    · simp only [Stream.Read, hlen, if_true]
      cases err with
      | none => simp [scriptContent]
      | some e => cases e <;> simp [scriptContent]
    · simp only [Stream.Read, hlen, if_false]
      cases err with
      | none => simp [scriptContent, ← List.append_assoc]
      | some e => cases e <;> simp [scriptContent, ← List.append_assoc]

mutual
theorem Reader_Read_conserve (p : Nat) : ∀ (r : Reader) (b : Bytes),
    ((Reader.Read p b r).1.err = some Err.EOF →
      (Reader.Read p b r).1.n = (r.bytes b).1 ∧ (Reader.Read p b r).2.1 = (r.bytes b).2) ∧
    ((Reader.Read p b r).1.err ≠ some Err.EOF →
      (Reader.Read p b r).1.n ++ ((Reader.Read p b r).2.2.bytes (Reader.Read p b r).2.1).1
        = (r.bytes b).1 ∧
      ((Reader.Read p b r).2.2.bytes (Reader.Read p b r).2.1).2 = (r.bytes b).2)
  | .bytesReader s, b => by
    cases s with
    | nil => simp [Reader.Read, Reader.bytes]
    | cons a t => simp [Reader.Read, Reader.bytes]
  | .buffer, b => by
    cases b with
    | nil => by_cases hp : p = 0 <;> simp [Reader.Read, Reader.bytes, hp]
    | cons a t => simp [Reader.Read, Reader.bytes]
  | .stream s, b => by
    have h := Stream_Read_conserve p s
    simpa [Reader.Read, Reader.bytes] using h
  | .eofReader, b => by simp [Reader.Read, Reader.bytes]
  | .multi rs, b => by
    obtain ⟨h1, h2⟩ := mrRead_conserve p rs b
    simp only [Reader.Read, Reader.bytes]
    refine ⟨fun he => ?_, fun _ => ⟨h1, h2⟩⟩
    have hnil := (mrRead_EOF_iff p rs b).mp he
    rw [hnil, queueBytes_nil] at h1 h2
    exact ⟨by simpa using h1, h2⟩
theorem mrRead_conserve (p : Nat) : ∀ (rs : List Reader) (b : Bytes),
    (mrRead p b rs).1.n ++ (queueBytes (mrRead p b rs).2.1 (mrRead p b rs).2.2).1
      = (queueBytes b rs).1 ∧
    (queueBytes (mrRead p b rs).2.1 (mrRead p b rs).2.2).2 = (queueBytes b rs).2
  | [], b => by simp [mrRead_nil, queueBytes_nil]
  | r :: rest, b => by
    by_cases h : ∀ inner, r = Reader.multi inner → rest = [] → False
    · obtain ⟨hr1, hr2⟩ := Reader_Read_conserve p r b
      rw [mrRead.eq_3 p b r rest h, queueBytes_cons]
      by_cases e1 : (Reader.Read p b r).1.err = some Err.EOF
      · obtain ⟨e2, e3⟩ := hr1 e1
        rw [if_pos e1]
        by_cases hn : (Reader.Read p b r).1.n ≠ []
        · rw [if_pos hn]
          simp only [e2, e3, and_self]
        · rw [if_neg hn]
          have hn1 : (Reader.Read p b r).1.n = [] := not_not.mp hn
          obtain ⟨i1, i2⟩ := mrRead_conserve p rest (Reader.Read p b r).2.1
          have hb : (r.bytes b).1 = [] := by rw [← e2, hn1]
          simp only [hb, List.nil_append, ← e3]
          exact ⟨i1, i2⟩
      · obtain ⟨e2, e3⟩ := hr2 e1
        rw [if_neg e1]
        simp only [queueBytes_cons, e3, ← e2, List.append_assoc, and_self]
    · push_neg at h
      obtain ⟨inner, rfl, rfl, _⟩ := h
      rw [mrRead_flatten, queueBytes_cons]
      simpa [Reader.bytes, queueBytes_nil] using mrRead_conserve p inner b
end

theorem unread_closed (w : FormBody) (hw : w.closed = true) :
    w.unread = (queueBytes w.b w.readers).1 := by
  rw [FormBody.unread, Close_of_closed w hw]

theorem Close_unread (w : FormBody) : w.Close.unread = w.unread := by
  rw [FormBody.unread, FormBody.unread, Close_of_closed _ (Close_closed w)]

theorem Read_closed_eq (p : Nat) (w : FormBody) (hw : w.closed = true) :
    w.Read p = ((mrRead p w.b w.readers).1,
      { w with b := (mrRead p w.b w.readers).2.1, readers := (mrRead p w.b w.readers).2.2 }) := by
  obtain ⟨B, b, rs, c⟩ := w
  simp only at hw
  subst hw
  cases rs with
  | nil => simp [FormBody.Read, mrRead_nil]
  | cons r rest => simp [FormBody.Read]

theorem Read_conserve (p : Nat) (w : FormBody) :
    (w.Read p).1.n ++ (w.Read p).2.unread = w.unread := by
  by_cases hq : w.readers = []
  · rw [Read_of_empty p w hq]
    rfl
  · rw [Read_eq_Read_Close p w hq, ← Close_unread w]
    have hc := Close_closed w
    rw [Read_closed_eq p w.Close hc, unread_closed w.Close hc]
    rw [unread_closed _ (by exact hc)]
    exact (mrRead_conserve p w.Close.readers w.Close.b).1

theorem readOutputs_cons (esc : Bytes → Bytes) (op : Op) (ops : List Op) (w : FormBody) :
    readOutputs esc w (op :: ops) = op.output w ++ readOutputs esc (op.apply esc w) ops := by
  rw [readOutputs]

theorem apply_conserve (esc : Bytes → Bytes) (op : Op) (hop : op.building = false)
    (w : FormBody) : op.output w ++ (op.apply esc w).unread = w.unread := by
  cases op with
  | Close => simpa [Op.apply, Op.output] using Close_unread w
  | Read p => simpa [Op.apply, Op.output] using Read_conserve p w
  | CreatePart hd => simp [Op.building] at hop
  | Write d => simp [Op.building] at hop
  | CreateFormField n => simp [Op.building] at hop
  | CreateFormFile n fn => simp [Op.building] at hop
  | WriteField n v => simp [Op.building] at hop
  | CreateFromReader n fn rd => simp [Op.building] at hop

theorem run_conserve (esc : Bytes → Bytes) : ∀ (ops : List Op) (w : FormBody),
    (∀ op ∈ ops, op.building = false) →
    readOutputs esc w ops ++ (run esc ops w).unread = w.unread
  | [], w, _ => by simp [readOutputs, run]
  | op :: ops, w, h => by
    have ih := run_conserve esc ops (op.apply esc w)
      (fun o ho => h o (List.mem_cons_of_mem _ ho))
    rw [readOutputs_cons, run_cons, List.append_assoc, ih]
    exact apply_conserve esc op (h op (List.mem_cons_self _ _)) w

theorem apply_open_unchanged (esc : Bytes → Bytes) (op : Op) (hop : op.building = false)
    (w : FormBody) (h1 : (op.apply esc w).closed = false) :
    op.apply esc w = w ∧ op.output w = [] := by
  cases op with
  | Close => simp [Op.apply, Close_closed] at h1
  | Read p =>
    by_cases hq : w.readers = []
    · simp [Op.apply, Op.output, Read_of_empty p w hq]
    · simp [Op.apply, Read_closed p w hq] at h1
  | CreatePart hd => simp [Op.building] at hop
  | Write d => simp [Op.building] at hop
  | CreateFormField n => simp [Op.building] at hop
  | CreateFormFile n fn => simp [Op.building] at hop
  | WriteField n v => simp [Op.building] at hop
  | CreateFromReader n fn rd => simp [Op.building] at hop

theorem run_open_unchanged (esc : Bytes → Bytes) : ∀ (ops : List Op) (w : FormBody),
    (∀ op ∈ ops, op.building = false) → (run esc ops w).closed = false →
    run esc ops w = w ∧ readOutputs esc w ops = []
  | [], w, _, _ => ⟨rfl, rfl⟩
  | op :: ops, w, h, ho => by
    rw [run_cons] at ho
    have h1 : (op.apply esc w).closed = false := run_open esc ops _ ho
    obtain ⟨k1, k2⟩ := apply_open_unchanged esc op (h op (List.mem_cons_self _ _)) w h1
    rw [k1] at ho
    obtain ⟨i1, i2⟩ := run_open_unchanged esc ops w
      (fun o ho2 => h o (List.mem_cons_of_mem _ ho2)) ho
    rw [run_cons, readOutputs_cons, k1, k2, i1, i2]
    exact ⟨rfl, rfl⟩

theorem unread_building (w : FormBody) (hw : Building w) :
    w.unread = w.pending ++ closingLine w.boundary := by
  obtain ⟨h1, h2⟩ := hw
  rw [FormBody.unread, Close_of_open w h1]
  simp only
  rw [queueBytes_append _ _ h2]
  simp [queueBytes_cons, queueBytes_nil, Reader.bytes, FormBody.pending]

theorem ReadAll_closed_unread (w : FormBody) (hw : w.closed = true)
    (hc : cleanList w.readers = true) (sz : Nat → Nat) (hsz : ∀ i, 0 < sz i) (fuel : Nat)
    (hfuel : readBound w.b w.readers ≤ fuel) :
    ReadAll fuel sz w = some (w.unread, none,
      { w with b := (queueBytes w.b w.readers).2, readers := [] }) := by
  rw [ReadAll_closed fuel sz w hw,
    mrReadAll_drain fuel sz w.b w.readers hsz hc (by unfold readBound at hfuel; omega),
    unread_closed w hw]
  rfl

/-- C7 (counterexample). On a new body the first `Read` returns 0 bytes and
end-of-stream and leaves the body open, and a further `Read` returns no byte
either; the `Close` after it appends the nine bytes `\r\n--B--\r\n`, which the
next `Read` returns: a `Close` after reading has added bytes. -/
theorem Close_after_Read_new_body :
    ((NewFormBody [66]).Read 4).1 = ⟨[], some Err.EOF, []⟩ ∧
    (((NewFormBody [66]).Read 4).2.Read 512).1.n = [] ∧
    ((NewFormBody [66]).Read 4).2.Close.b = [13, 10, 45, 45, 66, 45, 45, 13, 10] ∧
    (((NewFormBody [66]).Read 4).2.Close.Read 512).1.n
      = [13, 10, 45, 45, 66, 45, 45, 13, 10] := by
  refine ⟨?_, ?_, ?_, ?_⟩ <;> decide

/-- C7 (amended). `Close` is idempotent on every body state, and on a closed body
it changes nothing. Over any sequence of calls the closing boundary line is
written at most once; on an open body it is written exactly once if and only if
the sequence has a `Close` or a `Read` that finds a non-empty queue. The call
that writes it is a `Close`, or a `Read` of a non-empty queue that begins with
`Close`, and `Close` on an open body appends `\r\n--B--\r\n` to the buffer,
enqueues the buffer and sets the flag. Over any sequence of `Close` and `Read`
calls, with slices of any lengths, no other byte enters the stream: the bytes
returned by the `Read` calls followed by the bytes still to be read are the
bytes of the body closed once, which for a body under construction are its
pending bytes followed by one closing line; a run that leaves the body open
has changed nothing and returned no byte; and reading a closed body with
sources that fail with nothing but end-of-data to the end returns exactly the
bytes still to be read. A `Close` after a `Read` that found a non-empty queue
changes nothing; a `Close` after a `Read` that found an empty queue is the
`Close` of the body as it was before the `Read`. -/
theorem Close_once (esc : Bytes → Bytes) (w : FormBody) (ops : List Op) :
    w.Close.Close = w.Close ∧
    (w.closed = true → w.Close = w) ∧
    closings esc w ops ≤ 1 ∧
    (w.closed = false →
      (closings esc w ops = 1 ↔ ∃ ops1 op ops2, ops = ops1 ++ op :: ops2 ∧
        (op = Op.Close ∨ ∃ p, op = Op.Read p ∧ (run esc ops1 w).readers ≠ []))) ∧
    (w.closed = false → ∀ op, (op.apply esc w).closed = true →
      (op = Op.Close ∧ op.apply esc w = w.Close) ∨
      (∃ p, op = Op.Read p ∧ w.readers ≠ [] ∧ op.apply esc w = (w.Close.Read p).2)) ∧
    (w.closed = false → w.Close =
      { boundary := w.boundary
        b := w.b ++ (crlf ++ dashes ++ w.boundary ++ dashes ++ crlf)
        readers := w.readers ++ [Reader.buffer]
        closed := true }) ∧
    ((∀ op ∈ ops, op.building = false) →
      readOutputs esc w ops ++ (run esc ops w).unread = w.unread ∧
      ((run esc ops w).closed = true →
        readOutputs esc w ops ++ (queueBytes (run esc ops w).b (run esc ops w).readers).1
          = w.unread) ∧
      ((run esc ops w).closed = false → run esc ops w = w ∧ readOutputs esc w ops = [])) ∧
    (Building w →
      w.unread = w.pending ++ (crlf ++ dashes ++ w.boundary ++ dashes ++ crlf)) ∧
    (w.closed = true → cleanList w.readers = true → ∀ (sz : Nat → Nat), (∀ i, 0 < sz i) →
      ∀ fuel, readBound w.b w.readers ≤ fuel →
      ReadAll fuel sz w = some (w.unread, none,
        { w with b := (queueBytes w.b w.readers).2, readers := [] })) ∧
    (∀ p, w.readers ≠ [] → (w.Read p).2.Close = (w.Read p).2) ∧
    (∀ p, w.readers = [] → (w.Read p).2.Close = w.Close) := by
  refine ⟨Close_of_closed _ (Close_closed w), Close_of_closed w, closings_le_one esc ops w,
    ?_, ?_, ?_, ?_, ?_, ?_, ?_, ?_⟩
  · intro hw
    rw [closings_eq_one_iff esc ops w hw, run_closed_iff esc ops w hw]
  · intro hw op hc
    rcases (apply_closes esc op w hw).mp hc with rfl | ⟨p, rfl, hne⟩
    · exact Or.inl ⟨rfl, rfl⟩
    · exact Or.inr ⟨p, rfl, hne, by simp only [Op.apply]; rw [Read_eq_Read_Close p w hne]⟩
  · intro hw
    rw [Close_of_open w hw]
    rfl
  · intro hops
    have hcons := run_conserve esc ops w hops
    refine ⟨hcons, fun hc => ?_, fun ho => run_open_unchanged esc ops w hops ho⟩
    rw [← unread_closed _ hc]
    exact hcons
  · intro hb
    rw [unread_building w hb]
    rfl
  · intro hw hc sz hsz fuel hfuel
    exact ReadAll_closed_unread w hw hc sz hsz fuel hfuel
  · intro p hne
    exact Close_of_closed _ (Read_closed p w hne)
  · intro p hq
    rw [Read_of_empty p w hq]

theorem Close_once_witness :
    readOutputs id (run id [Op.WriteField [97] [120]] (NewFormBody [66]))
        [Op.Read 3, Op.Close, Op.Read 512, Op.Close, Op.Read 0, Op.Read 512] ++
      (run id [Op.Read 3, Op.Close, Op.Read 512, Op.Close, Op.Read 0, Op.Read 512]
        (run id [Op.WriteField [97] [120]] (NewFormBody [66]))).unread
      = (run id [Op.WriteField [97] [120]] (NewFormBody [66])).unread :=
  ((Close_once id (run id [Op.WriteField [97] [120]] (NewFormBody [66]))
      [Op.Read 3, Op.Close, Op.Read 512, Op.Close, Op.Read 0, Op.Read 512]).2.2.2.2.2.2.1
    (by decide)).1

end Multipart
